import Mathlib

set_option autoImplicit false

/-!
Verification development for the agent-skills-manager installation and
registry subsystem.  The TypeScript sources are shallowly embedded:

* strings are Lean `String`s manipulated through their `data : List Char`;
* JavaScript regular-expression pipelines (`sanitizeName`, the slugifier)
  become explicit recursive functions on `List Char`;
* Node `path` operations (`normalize`, `resolve`, `join`, `basename`) are
  modelled for POSIX separators on segment lists;
* the filesystem is a flat map from directory paths to content trees, and
  the effectful installer is written in explicit state-passing style with an
  environment describing which primitive operations fail (a JavaScript
  `throw` is an `JsThrow`: an `Error` carrying a message, or a non-`Error`
  value);
* the JSON lock document is a structure whose optional fields model the
  shapes `JSON.parse` can actually produce at the points the code checks.
-/

/-! ## Character helpers (ASCII model of the JS string primitives) -/

/-- ASCII lower-casing, the fragment of `String.prototype.toLowerCase`
relevant to the sanitizer (the skill names involved are ASCII). -/
def asciiLower (c : Char) : Char :=
  if 65 ≤ c.toNat ∧ c.toNat ≤ 90 then Char.ofNat (c.toNat + 32) else c

/-- Characters matched by the class `[a-z0-9._]` of `sanitizeName`. -/
def allowedSan (c : Char) : Bool :=
  (97 ≤ c.toNat && c.toNat ≤ 122) || (48 ≤ c.toNat && c.toNat ≤ 57) ||
    c = '.' || c = '_'

/-- Characters stripped at the edges by `sanitizeName` (`[.\-]`). -/
def edgeChar (c : Char) : Bool :=
  c = '.' || c = '-'

/-- Auxiliary for replacing each maximal run of `bad` characters with one
hyphen, as `.replace(/BAD+/g, '-')` does; `inRun` records whether we are in
the middle of a run whose hyphen has already been emitted. -/
def collapseAux (bad : Char → Bool) : Bool → List Char → List Char
  | _, [] => []
  | inRun, c :: rest =>
    if bad c then
      if inRun then collapseAux bad true rest
      else '-' :: collapseAux bad true rest
    else c :: collapseAux bad false rest

/-- Replace every maximal run of `bad` characters with a single hyphen. -/
def collapseRunsBy (bad : Char → Bool) (l : List Char) : List Char :=
  collapseAux bad false l

/-- Drop the trailing run of characters satisfying `p`
(the `[.\-]+$` half of the edge-stripping regex). -/
def dropTrailing (p : Char → Bool) (l : List Char) : List Char :=
  ((l.reverse).dropWhile p).reverse

/-- Strip the leading and trailing `[.\-]` runs, as
`.replace(/^[.\-]+|[.\-]+$/g, '')` does. -/
def stripEdges (l : List Char) : List Char :=
  dropTrailing edgeChar (l.dropWhile edgeChar)

/-- The pre-truncation pipeline of `sanitizeName` (src/installer.ts):
lower-case, collapse runs of characters outside `[a-z0-9._]` to `-`,
strip leading/trailing `[.\-]`. -/
def sanitizeStage1 (l : List Char) : List Char :=
  stripEdges (collapseRunsBy (fun c => !allowedSan c) (l.map asciiLower))

/-- List-level body of `sanitizeName` (src/installer.ts): the pipeline
above, truncated to 255 characters, falling back to `unnamed-skill` when
empty. -/
def sanitizeList (l : List Char) : List Char :=
  let t := (sanitizeStage1 l).take 255
  if t.isEmpty then "unnamed-skill".data else t

/-- `sanitizeName` from src/installer.ts. -/
def sanitizeName (name : String) : String :=
  ⟨sanitizeList name.data⟩

example : sanitizeName "Git Review Before Commit" = "git-review-before-commit" := by decide

example : sanitizeName "  ..--  " = "unnamed-skill" := by decide

example : sanitizeName "A__b..C" = "a__b..c" := by decide

/-! ## POSIX path model (Node `path`: `normalize`, `resolve`, `join`,
`basename`, `sep = "/"`).  A path is parsed into its non-empty
slash-separated segments; normalization resolves `.` and `..` segments. -/

/-- Split a character list at `/` into non-empty segments; `cur` is the
reversed current segment being accumulated. -/
def splitSegsAux : List Char → List Char → List (List Char)
  | [], cur => if cur.isEmpty then [] else [cur.reverse]
  | c :: rest, cur =>
    if c = '/' then
      if cur.isEmpty then splitSegsAux rest []
      else cur.reverse :: splitSegsAux rest []
    else splitSegsAux rest (c :: cur)

/-- The non-empty `/`-separated segments of a path. -/
def splitSegs (l : List Char) : List (List Char) :=
  splitSegsAux l []

/-- Whether a path string is absolute (starts with `/`). -/
def isAbsL : List Char → Bool
  | '/' :: _ => true
  | _ => false

/-- One step of segment normalization over a reversed stack of already
processed segments.  `.` is dropped; `..` pops the previous real segment,
is dropped at the root of an absolute path, and is kept for a relative
path with nothing left to pop. -/
def normStep (abs : Bool) (stack : List (List Char)) (seg : List Char) : List (List Char) :=
  if seg = ['.'] then stack
  else if seg = ['.', '.'] then
    match stack with
    | [] => if abs then [] else [seg]
    | top :: rest => if top = ['.', '.'] then seg :: stack else rest
  else seg :: stack

/-- Normalize a segment list (resolve `.` and `..`). -/
def normSegs (abs : Bool) (segs : List (List Char)) : List (List Char) :=
  (segs.foldl (normStep abs) []).reverse

/-- Join segments back with `/`. -/
def joinChars : List (List Char) → List Char
  | [] => []
  | [s] => s
  | s :: rest => s ++ '/' :: joinChars rest

/-- Render a normalized segment list as a path string; an empty relative
result renders as `.` exactly as Node `path.normalize`/`join` produce. -/
def renderPath (abs : Bool) (segs : List (List Char)) : List Char :=
  if abs then '/' :: joinChars segs
  else if (joinChars segs).isEmpty then ['.'] else joinChars segs

/-- Node `path.normalize` (POSIX; trailing-slash preservation is dropped,
which is inert here because every normalize in the source is applied to
`resolve` output, which never ends in a slash). -/
def nodeNormalize (p : String) : String :=
  ⟨renderPath (isAbsL p.data) (normSegs (isAbsL p.data) (splitSegs p.data))⟩

/-- Node `path.resolve(p)` with the process working directory `cwd` made
explicit (the source always calls it in a process whose `cwd` is an
absolute path). -/
def nodeResolve (cwd p : String) : String :=
  if isAbsL p.data then ⟨'/' :: joinChars (normSegs true (splitSegs p.data))⟩
  else ⟨'/' :: joinChars (normSegs true (splitSegs (cwd.data ++ '/' :: p.data)))⟩

/-- Node `path.join(a, b)` (POSIX): concatenate with `/` skipping empty
arguments, then normalize. -/
def joinP (a b : String) : String :=
  let l := if a.data.isEmpty then b.data
           else if b.data.isEmpty then a.data
           else a.data ++ '/' :: b.data
  ⟨renderPath (isAbsL l) (normSegs (isAbsL l) (splitSegs l))⟩

/-- Node `path.basename` (POSIX): the last non-empty segment, or `""`. -/
def nodeBasename (p : String) : String :=
  match (splitSegs p.data).getLast? with
  | some s => ⟨s⟩
  | none => ""

example : nodeNormalize "/a//b/../c/./" = "/a/c" := by decide
example : nodeResolve "/w" "a/../b" = "/w/b" := by decide
example : nodeResolve "/w" "/x/y/.." = "/x" := by decide
example : joinP "/a/b" "c" = "/a/b/c" := by decide
example : joinP "a" "../../b" = "../b" := by decide
example : nodeBasename "/a/b/" = "b" := by decide
example : nodeBasename "/" = "" := by decide

/-! ## The two path-safety predicates -/

/-- The absolute normalized form `normalize(resolve(p))` that
`isPathSafe` in src/installer.ts computes for each argument. -/
def pathResolved (procCwd p : String) : String :=
  nodeNormalize (nodeResolve procCwd p)

/-- The segment list underlying `pathResolved`. -/
def pathResolvedSegs (procCwd p : String) : List (List Char) :=
  if isAbsL p.data then normSegs true (splitSegs p.data)
  else normSegs true (splitSegs (procCwd.data ++ '/' :: p.data))

namespace Installer

/-- `isPathSafe` from src/installer.ts: both paths are resolved against the
process working directory and normalized; the target is safe iff it equals
the base or starts with the base followed by the separator. -/
def isPathSafe (procCwd basePath targetPath : String) : Bool :=
  let normalizedBase := pathResolved procCwd basePath
  let normalizedTarget := pathResolved procCwd targetPath
  (normalizedBase.data ++ ['/']).isPrefixOf normalizedTarget.data ||
    normalizedTarget == normalizedBase

end Installer

namespace Registry

/-- The lighter `isPathSafe` local to src/skill-registry.ts: backslashes
are rewritten to slashes and the same prefix test is applied, with no
resolution or normalization. -/
def isPathSafe (basePath targetPath : String) : Bool :=
  let normalizedBase := basePath.data.map (fun c => if c = '\\' then '/' else c)
  let normalizedTarget := targetPath.data.map (fun c => if c = '\\' then '/' else c)
  (normalizedBase ++ ['/']).isPrefixOf normalizedTarget ||
    normalizedTarget == normalizedBase

end Registry

example : Installer.isPathSafe "/w" "/a/b" "/a/b/c" = true := by decide
example : Installer.isPathSafe "/w" "/a/b" "/a/bc" = false := by decide
example : Installer.isPathSafe "/w" "/a/b" "/a/b/../b" = true := by decide
example : Installer.isPathSafe "/w" "/a/b" "/a/b/../c" = false := by decide
example : Installer.isPathSafe "/w" "/a/b" "/a" = false := by decide
example : Registry.isPathSafe "C:\\x" "C:/x/y" = true := by decide

/-! ## Registry / lock store (src/skill-registry.ts)

The persisted document is read as JSON; we embed the parsed value as an
`Option RawLockDoc` (`none` models a missing/unreadable file or a JSON
parse failure, both of which land in the same `catch`).  Inside the
document, `version : Option Int` is `none` when the field is absent or not
a number, and `skills : Option _` is `none` when the field is absent or
`null` (the only falsy values its object type admits).  The skills map is
an association list with the key semantics of a JavaScript object. -/

/-- Schema version constant `CURRENT_VERSION` of src/skill-registry.ts. -/
def CURRENT_VERSION : Int := 3

structure SkillLockEntry where
  source : String
  sourceType : String
  sourceUrl : String
  skillPath : Option String
  skillFolderHash : String
  gitCommitHash : Option String
  installedAt : String
  updatedAt : String
  deriving DecidableEq, Repr

/-- The metadata argument of `addSkillToLock` (everything but the
timestamps). -/
structure LockMetadata where
  source : String
  sourceType : String
  sourceUrl : String
  skillPath : Option String
  skillFolderHash : String
  gitCommitHash : Option String
  deriving DecidableEq, Repr

structure SkillLockFile where
  version : Int
  skills : List (String × SkillLockEntry)
  dismissedFindSkillsPrompt : Option Bool
  lastSelectedAgents : Option (List String)
  deriving DecidableEq, Repr

/-- The shape of a successfully parsed JSON document before the
field checks of `readSkillLock` are applied. -/
structure RawLockDoc where
  version : Option Int
  skills : Option (List (String × SkillLockEntry))
  dismissedFindSkillsPrompt : Option Bool
  lastSelectedAgents : Option (List String)
  deriving DecidableEq, Repr

/-- `createEmptyLockFile` from src/skill-registry.ts. -/
def createEmptyLockFile : SkillLockFile :=
  { version := CURRENT_VERSION
    skills := []
    dismissedFindSkillsPrompt := none
    lastSelectedAgents := none }

/-- `readSkillLock` from src/skill-registry.ts: on parse failure, a
non-numeric/absent version, an absent skills map, or a version below
`CURRENT_VERSION`, return a fresh empty document; otherwise return the
parsed document as-is. -/
def readSkillLock (persisted : Option RawLockDoc) : SkillLockFile :=
  match persisted with
  | none => createEmptyLockFile
  | some parsed =>
    match parsed.version, parsed.skills with
    | none, _ => createEmptyLockFile
    | _, none => createEmptyLockFile
    | some v, some sk =>
      if v < CURRENT_VERSION then createEmptyLockFile
      else
        { version := v
          skills := sk
          dismissedFindSkillsPrompt := parsed.dismissedFindSkillsPrompt
          lastSelectedAgents := parsed.lastSelectedAgents }

/-- JavaScript object update `obj[k] = v`: replace the entry in place if
the key exists (keys of a JS object are unique), otherwise append. -/
def objSet (m : List (String × SkillLockEntry)) (k : String) (v : SkillLockEntry) :
    List (String × SkillLockEntry) :=
  if m.any (fun p => p.1 = k) then
    m.map (fun p => if p.1 = k then (k, v) else p)
  else m ++ [(k, v)]

/-- JavaScript `delete obj[k]`. -/
def objDelete (m : List (String × SkillLockEntry)) (k : String) :
    List (String × SkillLockEntry) :=
  m.filter (fun p => ¬ p.1 = k)

/-- `addSkillToLock` from src/skill-registry.ts, as a transformation from
the persisted document to the document written back.  The key is the
`skillName` argument exactly as given; `installedAt` is kept from an
existing entry when truthy (a non-empty string), and `updatedAt` is always
the current time `now`. -/
def addSkillToLock (skillName : String) (metadata : LockMetadata) (now : String)
    (persisted : Option RawLockDoc) : SkillLockFile :=
  let lock := readSkillLock persisted
  let installedAt :=
    match List.lookup skillName lock.skills with
    | some prev => if prev.installedAt = "" then now else prev.installedAt
    | none => now
  { lock with
      skills := objSet lock.skills skillName
        { source := metadata.source
          sourceType := metadata.sourceType
          sourceUrl := metadata.sourceUrl
          skillPath := metadata.skillPath
          skillFolderHash := metadata.skillFolderHash
          gitCommitHash := metadata.gitCommitHash
          installedAt := installedAt
          updatedAt := now } }

/-- `removeSkillFromLock` from src/skill-registry.ts: deletes the entry
keyed by the sanitized name. -/
def removeSkillFromLock (skillName : String) (persisted : Option RawLockDoc) :
    SkillLockFile :=
  let lock := readSkillLock persisted
  { lock with skills := objDelete lock.skills (sanitizeName skillName) }

/-- `getSkillLockEntry` from src/skill-registry.ts: looks up the sanitized
name (`null` becomes `none`). -/
def getSkillLockEntry (skillName : String) (persisted : Option RawLockDoc) :
    Option SkillLockEntry :=
  List.lookup (sanitizeName skillName) (readSkillLock persisted).skills

/-! ## Update detector

Both update-detector modules delegate the fingerprint computations to I/O
helpers that return `null` on any failure; the comparison logic below is
pure, so the fingerprints appear as `Option String` arguments (`none` is a
`null` result; JavaScript also treats an empty string as falsy, which the
embedding reproduces). -/

structure UpdateStatus where
  skillName : String
  hasUpdate : Bool
  updateType : String
  localHash : String
  remoteHash : String
  deriving DecidableEq, Repr

/-- JavaScript falsiness of a `string | null` value. -/
def strFalsy : Option String → Bool
  | none => true
  | some s => s.isEmpty

/-- JavaScript `x || ''`. -/
def strOrEmpty : Option String → String
  | none => ""
  | some s => s

/-- `checkForUpdates` from src/update-detector.ts (content-hash variant):
if either fingerprint is falsy, no update and type `none`; otherwise an
update is available iff the hashes differ, with type `content`. -/
def checkForUpdatesContent (skillName : String) (localHash remoteHash : Option String) :
    UpdateStatus :=
  if strFalsy localHash || strFalsy remoteHash then
    { skillName := skillName
      hasUpdate := false
      updateType := "none"
      localHash := strOrEmpty localHash
      remoteHash := strOrEmpty remoteHash }
  else
    let l := strOrEmpty localHash
    let r := strOrEmpty remoteHash
    let hasUpdate := ¬ l = r
    { skillName := skillName
      hasUpdate := hasUpdate
      updateType := if hasUpdate then "content" else "none"
      localHash := l
      remoteHash := r }

/-- `checkForUpdates` from the git-commit-hash variant of the update
detector (the second `update-detector` module in the repository): same
shape, but the fingerprints are commit hashes and a difference is reported
with type `git`. -/
def checkForUpdatesGit (skillName : String) (localCommitHash remoteCommitHash : Option String) :
    UpdateStatus :=
  if strFalsy localCommitHash || strFalsy remoteCommitHash then
    { skillName := skillName
      hasUpdate := false
      updateType := "none"
      localHash := strOrEmpty localCommitHash
      remoteHash := strOrEmpty remoteCommitHash }
  else
    let l := strOrEmpty localCommitHash
    let r := strOrEmpty remoteCommitHash
    let hasUpdate := ¬ l = r
    { skillName := skillName
      hasUpdate := hasUpdate
      updateType := if hasUpdate then "git" else "none"
      localHash := l
      remoteHash := r }

example : (checkForUpdatesContent "s" (some "a") none).hasUpdate = false := by decide
example : (checkForUpdatesContent "s" (some "a") (some "b")).updateType = "content" := by decide
example : (checkForUpdatesGit "s" (some "a") (some "b")).updateType = "git" := by decide

/-! ## Installer (src/installer.ts)

The filesystem is a flat map from a directory path (a string) to the
content found there: either a tree of files and directories or a symbolic
link.  The installer only ever reads the skill source root and writes the
canonical and per-agent install roots, so the flat map records exactly the
observable footprint of an install.  Failures of the underlying Node
primitives are injected through an `FsEnv` environment: each fallible
primitive consults it and either succeeds or throws the prescribed
JavaScript value. -/

/-- A thrown JavaScript value: an `Error` with its message, or any
non-`Error` value. -/
inductive JsThrow where
  | err (msg : String)
  | other
  deriving DecidableEq, Repr

/-- What `catch (error)` in `installSkillForAgent` turns a thrown value
into: `error instanceof Error ? error.message : 'Unknown error'`. -/
def throwMessage : JsThrow → String
  | .err msg => msg
  | .other => "Unknown error"

/-- A tree of directory contents. -/
inductive FsTree where
  | file (content : String)
  | dir (entries : List (String × FsTree))

/-- What a filesystem path can hold: real content or a symbolic link. -/
inductive FsNode where
  | tree (t : FsTree)
  | symlinkTo (target : String)

/-- The filesystem: a flat map from directory paths to their content. -/
abbrev Fs := String → Option FsNode

/-- Point update of the filesystem map. -/
def fsSet (fs : Fs) (p : String) (n : Option FsNode) : Fs :=
  fun q => if q = p then n else fs q

/-- JavaScript `name.startsWith('_')`: the first character is `_`. -/
def headUnderscore (name : String) : Bool :=
  match name.data with
  | '_' :: _ => true
  | _ => false

/-- The file/directory exclusion predicate of src/installer.ts
(`EXCLUDE_FILES`, names starting with `_`, and `.git` for directories). -/
def isExcluded (name : String) (isDirectory : Bool) : Bool :=
  name = "README.md" || name = "metadata.json" || headUnderscore name ||
    (isDirectory && name = ".git")

/-- Whether a tree node is a directory. -/
def isDirT : FsTree → Bool
  | .dir _ => true
  | .file _ => false

mutual

/-- The filtered recursive copy `copyDirectory` performs, as a pure tree
transformation: excluded entries are dropped at every level. -/
def copyTree : FsTree → FsTree
  | .file c => .file c
  | .dir es => .dir (copyEntries es)

/-- Entry-list part of `copyTree`. -/
def copyEntries : List (String × FsTree) → List (String × FsTree)
  | [] => []
  | (n, t) :: rest =>
    if isExcluded n (isDirT t) then copyEntries rest
    else (n, copyTree t) :: copyEntries rest

end

/-- Environment of primitive-operation outcomes for one installer run. -/
structure FsEnv where
  cleanErr : String → Option JsThrow
  copyErr : String → String → Option JsThrow
  symlinkOk : Bool

/-- `cleanAndCreateDirectory` from src/installer.ts: `rm` (its errors are
swallowed, and with `force: true` it succeeds on missing paths) followed
by `mkdir`, which may throw — in which case the removal has already
happened. -/
def cleanAndCreateDirectory (env : FsEnv) (fs : Fs) (p : String) : Fs × Option JsThrow :=
  let fs1 := fsSet fs p none
  match env.cleanErr p with
  | some e => (fs1, some e)
  | none => (fsSet fs1 p (some (.tree (.dir []))), none)

/-- `copyDirectory` from src/installer.ts as a filesystem operation.
Reading a missing source throws `ENOENT`; otherwise the environment
decides success.  At both call sites in `installSkillForAgent` the
destination has just been cleared by `cleanAndCreateDirectory`, so the
original's recursive merge into the (empty) existing destination is the
plain filtered copy embedded here. -/
def copyDirectory (env : FsEnv) (fs : Fs) (src dest : String) : Fs × Option JsThrow :=
  match fs src with
  | some (.tree t) =>
    match env.copyErr src dest with
    | some e => (fs, some e)
    | none => (fsSet fs dest (some (.tree (copyTree t))), none)
  | _ => (fs, some (.err "ENOENT: no such file or directory"))

/-- `createSymlink` from src/installer.ts.  The function traps all its own
errors and reports success as a boolean; the stale-entry cleanup and the
already-correct-link no-op both end, on success, with the link in place,
so the embedding keeps only the outcome: on success the link path holds a
link to the target, on failure the filesystem is untouched. -/
def createSymlink (env : FsEnv) (fs : Fs) (target linkPath : String) : Fs × Bool :=
  if env.symlinkOk then (fsSet fs linkPath (some (.symlinkTo target)), true)
  else (fs, false)

inductive InstallMode where
  | symlink
  | copy
  deriving DecidableEq, Repr

/-- `InstallResult` from src/skills-api.ts. -/
structure InstallResult where
  success : Bool
  path : String
  canonicalPath : Option String
  mode : InstallMode
  symlinkFailed : Option Bool
  error : Option String
  deriving DecidableEq, Repr

/-- An agent-target definition (the fields of the static agent registry
that `installSkillForAgent` reads). -/
structure Agent where
  displayName : String
  skillsDir : String
  globalSkillsDir : Option String
  deriving DecidableEq, Repr

/-- `DiscoveredSkill` from src/repository-manager.ts. -/
structure DiscoveredSkill where
  name : String
  description : String
  path : String
  rawContent : String
  deriving DecidableEq, Repr

/-- The options record of `installSkillForAgent`. -/
structure InstallOptions where
  global : Option Bool
  cwd : Option String
  mode : Option InstallMode
  deriving DecidableEq, Repr

/-- Modelled from the spec: the constant `AGENTS_DIR` lives in
src/constants.ts, which is not part of the provided sources; the directory
layout contract fixes the canonical root marker as `.agents`. -/
def AGENTS_DIR : String := ".agents"

/-- Modelled from the spec: the constant `SKILLS_SUBDIR` lives in
src/constants.ts, which is not part of the provided sources; the directory
layout contract fixes the skills marker as `skills`. -/
def SKILLS_SUBDIR : String := "skills"

/-- JavaScript `options.cwd || process.cwd()`. -/
def installCwd (opts : InstallOptions) (procCwd : String) : String :=
  match opts.cwd with
  | some c => if c.isEmpty then procCwd else c
  | none => procCwd

/-- `getCanonicalSkillsDir` from src/installer.ts, with `homedir()` and
`process.cwd()` made explicit. -/
def getCanonicalSkillsDir (globalScope : Bool) (cwdOpt : Option String)
    (procCwd home : String) : String :=
  let baseDir :=
    if globalScope then home
    else match cwdOpt with
         | some c => if c.isEmpty then procCwd else c
         | none => procCwd
  joinP (joinP baseDir AGENTS_DIR) SKILLS_SUBDIR

/-- The sanitized skill name the installer derives
(`skill.name || basename(skill.path)` then `sanitizeName`). -/
def installSkillName (skill : DiscoveredSkill) : String :=
  sanitizeName (if skill.name.isEmpty then nodeBasename skill.path else skill.name)

/-- The canonical skills base directory an install run uses. -/
def installCanonicalBase (opts : InstallOptions) (procCwd home : String) : String :=
  getCanonicalSkillsDir (opts.global.getD false) (some (installCwd opts procCwd)) procCwd home

/-- The canonical directory for the skill. -/
def installCanonicalDir (skill : DiscoveredSkill) (opts : InstallOptions)
    (procCwd home : String) : String :=
  joinP (installCanonicalBase opts procCwd home) (installSkillName skill)

/-- The agent-side base directory (global skills dir for global installs,
otherwise the working directory joined with the agent's skills dir).  The
`getD ""` is only reachable in the global case, which the caller has
already guarded against when `globalSkillsDir` is absent. -/
def installAgentBase (agent : Agent) (opts : InstallOptions) (procCwd : String) : String :=
  if opts.global.getD false then agent.globalSkillsDir.getD ""
  else joinP (installCwd opts procCwd) agent.skillsDir

/-- The agent-side install directory for the skill. -/
def installAgentDir (skill : DiscoveredSkill) (agent : Agent) (opts : InstallOptions)
    (procCwd : String) : String :=
  joinP (installAgentBase agent opts procCwd) (installSkillName skill)

/-- `installSkillForAgent` from src/installer.ts, with the static agent
registry entry passed directly, the process working directory and home
directory explicit, and the filesystem threaded as state.  Every exit of
the original returns an `InstallResult`; the `try`/`catch` around the
filesystem phase appears as the propagation of the `Option JsThrow`
component of each primitive into the catch-result. -/
def installSkillForAgent (env : FsEnv) (skill : DiscoveredSkill) (agent : Agent)
    (opts : InstallOptions) (procCwd home : String) (fs : Fs) : InstallResult × Fs :=
  let isGlobal := opts.global.getD false
  let installMode := opts.mode.getD .symlink
  if isGlobal ∧ agent.globalSkillsDir = none then
    ({ success := false
       path := ""
       canonicalPath := none
       mode := installMode
       symlinkFailed := none
       error := some (agent.displayName ++ " does not support global skill installation") },
     fs)
  else
    let canonicalBase := installCanonicalBase opts procCwd home
    let canonicalDir := installCanonicalDir skill opts procCwd home
    let agentBase := installAgentBase agent opts procCwd
    let agentDir := installAgentDir skill agent opts procCwd
    if ¬ Installer.isPathSafe procCwd canonicalBase canonicalDir then
      ({ success := false
         path := agentDir
         canonicalPath := none
         mode := installMode
         symlinkFailed := none
         error := some "Invalid skill name: potential path traversal detected" },
       fs)
    else if ¬ Installer.isPathSafe procCwd agentBase agentDir then
      ({ success := false
         path := agentDir
         canonicalPath := none
         mode := installMode
         symlinkFailed := none
         error := some "Invalid skill name: potential path traversal detected" },
       fs)
    else if installMode = .copy then
      match cleanAndCreateDirectory env fs agentDir with
      | (fs1, some e) =>
        ({ success := false, path := agentDir, canonicalPath := none
           mode := installMode, symlinkFailed := none
           error := some (throwMessage e) }, fs1)
      | (fs1, none) =>
        match copyDirectory env fs1 skill.path agentDir with
        | (fs2, some e) =>
          ({ success := false, path := agentDir, canonicalPath := none
             mode := installMode, symlinkFailed := none
             error := some (throwMessage e) }, fs2)
        | (fs2, none) =>
          ({ success := true, path := agentDir, canonicalPath := none
             mode := .copy, symlinkFailed := none, error := none }, fs2)
    else
      match cleanAndCreateDirectory env fs canonicalDir with
      | (fs1, some e) =>
        ({ success := false, path := agentDir, canonicalPath := none
           mode := installMode, symlinkFailed := none
           error := some (throwMessage e) }, fs1)
      | (fs1, none) =>
        match copyDirectory env fs1 skill.path canonicalDir with
        | (fs2, some e) =>
          ({ success := false, path := agentDir, canonicalPath := none
             mode := installMode, symlinkFailed := none
             error := some (throwMessage e) }, fs2)
        | (fs2, none) =>
          match createSymlink env fs2 canonicalDir agentDir with
          | (fs3, true) =>
            ({ success := true, path := agentDir, canonicalPath := some canonicalDir
               mode := .symlink, symlinkFailed := none, error := none }, fs3)
          | (fs3, false) =>
            match cleanAndCreateDirectory env fs3 agentDir with
            | (fs4, some e) =>
              ({ success := false, path := agentDir, canonicalPath := none
                 mode := installMode, symlinkFailed := none
                 error := some (throwMessage e) }, fs4)
            | (fs4, none) =>
              match copyDirectory env fs4 skill.path agentDir with
              | (fs5, some e) =>
                ({ success := false, path := agentDir, canonicalPath := none
                   mode := installMode, symlinkFailed := none
                   error := some (throwMessage e) }, fs5)
              | (fs5, none) =>
                ({ success := true, path := agentDir, canonicalPath := some canonicalDir
                   mode := .symlink, symlinkFailed := some true, error := none }, fs5)

/-! ## C9 infrastructure: where failure messages can come from -/

theorem cleanAndCreateDirectory_err {env : FsEnv} {fs fs' : Fs} {p : String} {e : JsThrow}
    (h : cleanAndCreateDirectory env fs p = (fs', some e)) : env.cleanErr p = some e := by
  unfold cleanAndCreateDirectory at h
  rcases hh : env.cleanErr p with _ | e'
  · rw [hh] at h
    simp at h
  · rw [hh] at h
    simp only [Prod.mk.injEq, Option.some.injEq] at h
    rw [h.2]

theorem copyDirectory_err {env : FsEnv} {fs fs' : Fs} {src dest : String} {e : JsThrow}
    (h : copyDirectory env fs src dest = (fs', some e)) :
    env.copyErr src dest = some e ∨ e = JsThrow.err "ENOENT: no such file or directory" := by
  unfold copyDirectory at h
  rcases hh : fs src with _ | node
  · rw [hh] at h
    simp only [Prod.mk.injEq, Option.some.injEq] at h
    exact Or.inr h.2.symm
  · cases node with
    | tree t =>
      rw [hh] at h
      rcases hc : env.copyErr src dest with _ | e'
      · rw [hc] at h
        simp at h
      · rw [hc] at h
        simp only [Prod.mk.injEq, Option.some.injEq] at h
        rw [h.2]
        exact Or.inl rfl
    | symlinkTo tgt =>
      rw [hh] at h
      simp only [Prod.mk.injEq, Option.some.injEq] at h
      exact Or.inr h.2.symm

/-- Every run of the installer either succeeds or reports an error message
drawn from the fixed scope/traversal messages, a thrown error's message,
or the fixed missing-source message. -/
theorem install_outcome (env : FsEnv) (skill : DiscoveredSkill) (agent : Agent)
    (opts : InstallOptions) (procCwd home : String) (fs : Fs) :
    (installSkillForAgent env skill agent opts procCwd home fs).1.success = true ∨
    (∃ m, (installSkillForAgent env skill agent opts procCwd home fs).1.error = some m ∧
      (m = agent.displayName ++ " does not support global skill installation" ∨
       m = "Invalid skill name: potential path traversal detected" ∨
       (∃ e, m = throwMessage e ∧
         (e = JsThrow.err "ENOENT: no such file or directory" ∨
          (∃ p, env.cleanErr p = some e) ∨
          (∃ s d, env.copyErr s d = some e))))) := by
  simp only [installSkillForAgent]
  split
  · exact Or.inr ⟨_, rfl, Or.inl rfl⟩
  split
  · exact Or.inr ⟨_, rfl, Or.inr (Or.inl rfl)⟩
  split
  · exact Or.inr ⟨_, rfl, Or.inr (Or.inl rfl)⟩
  split
  · split
    next fs1 e heq =>
      exact Or.inr ⟨_, rfl, Or.inr (Or.inr ⟨e, rfl,
        Or.inr (Or.inl ⟨_, cleanAndCreateDirectory_err heq⟩)⟩)⟩
    next fs1 heq =>
      split
      next fs2 e heq2 =>
        rcases copyDirectory_err heq2 with hp | hp
        · exact Or.inr ⟨_, rfl, Or.inr (Or.inr ⟨e, rfl, Or.inr (Or.inr ⟨_, _, hp⟩)⟩)⟩
        · exact Or.inr ⟨_, rfl, Or.inr (Or.inr ⟨e, rfl, Or.inl hp⟩)⟩
      next fs2 heq2 => exact Or.inl rfl
  · split
    next fs1 e heq =>
      exact Or.inr ⟨_, rfl, Or.inr (Or.inr ⟨e, rfl,
        Or.inr (Or.inl ⟨_, cleanAndCreateDirectory_err heq⟩)⟩)⟩
    next fs1 heq =>
      split
      next fs2 e heq2 =>
        rcases copyDirectory_err heq2 with hp | hp
        · exact Or.inr ⟨_, rfl, Or.inr (Or.inr ⟨e, rfl, Or.inr (Or.inr ⟨_, _, hp⟩)⟩)⟩
        · exact Or.inr ⟨_, rfl, Or.inr (Or.inr ⟨e, rfl, Or.inl hp⟩)⟩
      next fs2 heq2 =>
        split
        next fs3 heq3 => exact Or.inl rfl
        next fs3 heq3 =>
          split
          next fs4 e heq4 =>
            exact Or.inr ⟨_, rfl, Or.inr (Or.inr ⟨e, rfl,
              Or.inr (Or.inl ⟨_, cleanAndCreateDirectory_err heq4⟩)⟩)⟩
          next fs4 heq4 =>
            split
            next fs5 e heq5 =>
              rcases copyDirectory_err heq5 with hp | hp
              · exact Or.inr ⟨_, rfl, Or.inr (Or.inr ⟨e, rfl, Or.inr (Or.inr ⟨_, _, hp⟩)⟩)⟩
              · exact Or.inr ⟨_, rfl, Or.inr (Or.inr ⟨e, rfl, Or.inl hp⟩)⟩
            next fs5 heq5 => exact Or.inl rfl

/-- Strings ending in the fixed scope-failure suffix are non-empty. -/
theorem append_scope_msg_ne_empty (s : String) :
    ¬ (s ++ " does not support global skill installation") = "" := by
  intro h
  have h2 : (s ++ " does not support global skill installation").data =
      ("" : String).data := by rw [h]
  simp [String.append, String.data] at h2

/-- C9 (amended): `installSkillForAgent` never throws — every run returns
an `InstallResult`; every failure carries an error message
(`error.isSome`); the unsupported-global-scope and path-traversal checks
return fixed non-empty messages before any filesystem operation (the
filesystem state is unchanged on those exits); and when the environment
never throws an `Error` with an empty message, every failure's error
string is non-empty (a thrown empty-message `Error` is the one exception,
reported as `some ""`). -/
theorem install_error_reporting (env : FsEnv) (skill : DiscoveredSkill) (agent : Agent)
    (opts : InstallOptions) (procCwd home : String) (fs : Fs) :
    ((installSkillForAgent env skill agent opts procCwd home fs).1.success = false →
      (installSkillForAgent env skill agent opts procCwd home fs).1.error.isSome = true) ∧
    (opts.global.getD false = true ∧ agent.globalSkillsDir = none →
      (installSkillForAgent env skill agent opts procCwd home fs).1.success = false ∧
      (installSkillForAgent env skill agent opts procCwd home fs).1.error =
        some (agent.displayName ++ " does not support global skill installation") ∧
      (installSkillForAgent env skill agent opts procCwd home fs).2 = fs) ∧
    (¬ (opts.global.getD false = true ∧ agent.globalSkillsDir = none) →
      (Installer.isPathSafe procCwd (installCanonicalBase opts procCwd home)
          (installCanonicalDir skill opts procCwd home) = false ∨
        Installer.isPathSafe procCwd (installAgentBase agent opts procCwd)
          (installAgentDir skill agent opts procCwd) = false) →
      (installSkillForAgent env skill agent opts procCwd home fs).1.success = false ∧
      (installSkillForAgent env skill agent opts procCwd home fs).1.error =
        some "Invalid skill name: potential path traversal detected" ∧
      (installSkillForAgent env skill agent opts procCwd home fs).2 = fs) ∧
    ((∀ p, ¬ env.cleanErr p = some (JsThrow.err "")) →
      (∀ src dest, ¬ env.copyErr src dest = some (JsThrow.err "")) →
      (installSkillForAgent env skill agent opts procCwd home fs).1.success = false →
      ∃ m, (installSkillForAgent env skill agent opts procCwd home fs).1.error = some m ∧
        ¬ m = "") := by
  refine ⟨?_, ?_, ?_, ?_⟩
  · intro hfail
    rcases install_outcome env skill agent opts procCwd home fs with hok | ⟨m, hm, _⟩
    · rw [hok] at hfail
      cases hfail
    · rw [hm]
      rfl
  · intro hguard
    simp only [installSkillForAgent]
    rw [if_pos hguard]
    exact ⟨rfl, rfl, rfl⟩
  · intro hguard hunsafe
    simp only [installSkillForAgent]
    rw [if_neg hguard]
    by_cases hsafe1 : Installer.isPathSafe procCwd (installCanonicalBase opts procCwd home)
        (installCanonicalDir skill opts procCwd home) = true
    · have hsafe2 : Installer.isPathSafe procCwd (installAgentBase agent opts procCwd)
          (installAgentDir skill agent opts procCwd) = false := by
        rcases hunsafe with h1 | h2
        · rw [hsafe1] at h1
          cases h1
        · exact h2
      rw [if_neg (by simp [hsafe1]), if_pos (by simp [hsafe2])]
      exact ⟨rfl, rfl, rfl⟩
    · rw [if_pos (by simpa using hsafe1)]
      exact ⟨rfl, rfl, rfl⟩
  · intro hclean hcopy hfail
    rcases install_outcome env skill agent opts procCwd home fs with hok | ⟨m, hm, hsrc⟩
    · rw [hok] at hfail
      cases hfail
    · refine ⟨m, hm, ?_⟩
      rcases hsrc with h | h | ⟨e, he, hp⟩
      · rw [h]
        exact append_scope_msg_ne_empty agent.displayName
      · rw [h]
        decide
      · cases e with
        | err msg =>
          rcases hp with hp | ⟨p, hp⟩ | ⟨a, b, hp⟩
          · rw [he, hp]
            decide
          · intro hemp
            rw [he] at hemp
            simp only [throwMessage] at hemp
            rw [hemp] at hp
            exact hclean p hp
          · intro hemp
            rw [he] at hemp
            simp only [throwMessage] at hemp
            rw [hemp] at hp
            exact hcopy a b hp
        | other =>
          rw [he]
          decide

/-! ## Cross-target skill matcher (src/skill-registry.ts, `listInstalledSkills`)

The per-agent presence check for one discovered canonical skill is
embedded with its filesystem reads as oracles: `statOk` tells whether
`stat` succeeds on a path, and the agent base's directory listing (with
each subdirectory's parsed descriptor name, when `SKILL.md` exists and
parses) models the strategy-(d) scan.  The embedded loop also returns the
list of paths actually probed by `stat` and whether the scan ran, so that
the short-circuit behaviour is part of the observable result. -/

/-- Characters matched by the JavaScript `\s` class (ASCII fragment). -/
def jsWhitespace (c : Char) : Bool :=
  c = ' ' || c = '\t' || c = '\n' || c = '\x0b' || c = '\x0c' || c = '\r'

/-- The loose slug `listInstalledSkills` builds from the declared name:
`name.toLowerCase().replace(/\s+/g, '-').replace(/[\/\\:\0]/g, '')`. -/
def looseSlug (name : String) : String :=
  ⟨(collapseRunsBy jsWhitespace (name.data.map asciiLower)).filter
      (fun c => ¬ (c = '/' ∨ c = '\\' ∨ c = ':' ∨ c = '\x00'))⟩

example : looseSlug "My  Cool/Skill" = "my-coolskill" := by decide

/-- JavaScript `Array.from(new Set(l))`: keeps the first occurrence of
each element, in order. -/
def jsDedup : List String → List String
  | [] => []
  | x :: rest => x :: jsDedup (rest.filter (fun y => ¬ y = x))
termination_by l => l.length
decreasing_by
  exact Nat.lt_succ_of_le (List.length_filter_le _ _)

/-- The name-probing loop: for each candidate name in order, skip it if
the joined path fails the registry path-safety check, otherwise `stat` it;
stop at the first success.  Returns the outcome together with the probed
paths (the loop body's observable reads). -/
def probeNames (statOk : String → Bool) (agentBase : String) :
    List String → Bool × List String
  | [] => (false, [])
  | n :: rest =>
    let agentSkillDir := joinP agentBase n
    if Registry.isPathSafe agentBase agentSkillDir then
      if statOk agentSkillDir then (true, [agentSkillDir])
      else
        let r := probeNames statOk agentBase rest
        (r.1, agentSkillDir :: r.2)
    else probeNames statOk agentBase rest

/-- One entry of the agent base directory as the scan sees it: its name,
whether it is a directory, and the declared name of its descriptor when
`SKILL.md` exists and parses. -/
structure AgentDirEntry where
  name : String
  isDirectory : Bool
  descriptorName : Option String
  deriving DecidableEq, Repr

/-- Strategy (d): scan every directory under the agent base and compare
each descriptor's declared name for an exact match (`none` for the listing
models a `readdir` failure, which the original swallows). -/
def scanFallback (agentListing : Option (List AgentDirEntry)) (agentBase declaredName : String) :
    Bool :=
  match agentListing with
  | none => false
  | some entries =>
    entries.any (fun e =>
      e.isDirectory &&
        Registry.isPathSafe agentBase (joinP agentBase e.name) &&
        e.descriptorName == some declaredName)

/-- The per-agent presence determination of `listInstalledSkills`:
probe the canonical directory entry name, the sanitized skill name, and
the loose slug (deduplicated, in order), and only if none hit, run the
directory scan.  The result carries the probe trace and whether the scan
ran. -/
def checkAgentPresence (statOk : String → Bool) (agentListing : Option (List AgentDirEntry))
    (agentBase entryName declaredName : String) : Bool × List String × Bool :=
  let sanitizedSkillName := sanitizeName declaredName
  let possibleNames := [entryName, sanitizedSkillName, looseSlug declaredName]
  let uniqueNames := jsDedup possibleNames
  let probed := probeNames statOk agentBase uniqueNames
  if probed.1 then (true, probed.2, false)
  else (scanFallback agentListing agentBase declaredName, probed.2, true)

/-- Modelled from the spec: the ordered-strategy presence predicate as
§4.4 words it — try (a) the canonical directory entry name, (b) the
sanitized skill name, (c) the loose slug, each as an exact-name probe, and
fall back to (d) the directory scan only if none succeeded; the first
successful strategy wins. -/
def specPresence (statOk : String → Bool) (agentListing : Option (List AgentDirEntry))
    (agentBase entryName declaredName : String) : Bool :=
  let probe := fun (n : String) =>
    let d := joinP agentBase n
    Registry.isPathSafe agentBase d && statOk d
  probe entryName ||
    probe (sanitizeName declaredName) ||
    probe (looseSlug declaredName) ||
    scanFallback agentListing agentBase declaredName

/-! ## Helper lemmas: association lists with JavaScript object semantics -/

theorem lookup_objSet_self (m : List (String × SkillLockEntry)) (k : String)
    (v : SkillLockEntry) : List.lookup k (objSet m k v) = some v := by
  unfold objSet
  split
  · rename_i hmem
    induction m with
    | nil => simp at hmem
    | cons p rest ih =>
      obtain ⟨pk, pv⟩ := p
      by_cases hpk : pk = k
      · simp [List.lookup_cons, hpk]
      · simp only [List.any_cons, Bool.or_eq_true] at hmem
        rcases hmem with hmem | hmem
        · exact absurd (of_decide_eq_true hmem) hpk
        · have hne : (k == pk) = false := beq_false_of_ne (fun h => hpk h.symm)
          simpa [List.map_cons, hpk, List.lookup_cons, hne] using ih hmem
  · induction m with
    | nil => simp [List.lookup_cons]
    | cons p rest ih =>
      rename_i hmem
      obtain ⟨pk, pv⟩ := p
      simp only [List.any_cons, Bool.or_eq_true, not_or] at hmem
      obtain ⟨hpk, hrest⟩ := hmem
      have hpk' : ¬ pk = k := fun h => hpk (decide_eq_true h)
      have hne : (k == pk) = false := beq_false_of_ne (fun h => hpk' h.symm)
      simpa [List.cons_append, List.lookup_cons, hne] using ih hrest

theorem lookup_map_overwrite (rest : List (String × SkillLockEntry)) (k k' : String)
    (v : SkillLockEntry) (h : ¬ k' = k) :
    List.lookup k' (rest.map (fun p => if p.1 = k then (k, v) else p)) =
      List.lookup k' rest := by
  induction rest with
  | nil => simp
  | cons p rest ih =>
    obtain ⟨pk, pv⟩ := p
    by_cases hpk : pk = k
    · subst hpk
      have hbeq : (k' == pk) = false := beq_false_of_ne h
      simp [List.lookup_cons, hbeq, ih]
    · simp only [List.map_cons, hpk, if_false, List.lookup_cons]
      cases hkp : (k' == pk) <;> simp [ih]

theorem lookup_append_single (rest : List (String × SkillLockEntry)) (k k' : String)
    (v : SkillLockEntry) (h : ¬ k' = k) :
    List.lookup k' (rest ++ [(k, v)]) = List.lookup k' rest := by
  induction rest with
  | nil => simp [List.lookup_cons, beq_false_of_ne h]
  | cons p rest ih =>
    obtain ⟨pk, pv⟩ := p
    simp only [List.cons_append, List.lookup_cons]
    cases hkp : (k' == pk) <;> simp [ih]

theorem lookup_objSet_other (m : List (String × SkillLockEntry)) (k k' : String)
    (v : SkillLockEntry) (h : ¬ k' = k) :
    List.lookup k' (objSet m k v) = List.lookup k' m := by
  unfold objSet
  split
  · exact lookup_map_overwrite m k k' v h
  · exact lookup_append_single m k k' v h

theorem lookup_objDelete_other (m : List (String × SkillLockEntry)) (k k' : String)
    (h : ¬ k' = k) : List.lookup k' (objDelete m k) = List.lookup k' m := by
  unfold objDelete
  induction m with
  | nil => simp
  | cons p rest ih =>
    obtain ⟨pk, pv⟩ := p
    by_cases hpk : pk = k
    · subst hpk
      have hbeq : (k' == pk) = false := beq_false_of_ne h
      simp only [List.filter_cons, List.lookup_cons, hbeq, decide_eq_true_eq]
      simp only [decide_not] at ih ⊢
      simp [hbeq, ih]
    · simp only [List.filter_cons]
      have hdec : (decide ¬ pk = k) = true := by simp [hpk]
      simp only [decide_not] at hdec ⊢
      simp only [decide_not] at ih
      simp only [hdec, if_true, List.lookup_cons]
      cases hkp : (k' == pk) <;> simp [ih]

/-! ## Shared concrete sample values used by witnesses and counterexamples -/

/-- A sample lock entry. -/
def sampleEntry : SkillLockEntry :=
  { source := "github"
    sourceType := "git"
    sourceUrl := "https://example.com/r"
    skillPath := none
    skillFolderHash := "hash0"
    gitCommitHash := none
    installedAt := "2026-01-01T00:00:00.000Z"
    updatedAt := "2026-01-02T00:00:00.000Z" }

/-- A sample metadata record for `addSkillToLock`. -/
def sampleMeta : LockMetadata :=
  { source := "github"
    sourceType := "git"
    sourceUrl := "https://example.com/r"
    skillPath := none
    skillFolderHash := "hash1"
    gitCommitHash := none }

/-- A valid persisted document at the current schema version. -/
def sampleDoc : RawLockDoc :=
  { version := some CURRENT_VERSION
    skills := some [("my-skill", sampleEntry), ("other", sampleEntry)]
    dismissedFindSkillsPrompt := some true
    lastSelectedAgents := some ["cursor"] }

/-! ## C4: registry read and schema versioning -/

/-- C4 counterexample: a persisted document whose version (4) differs from
the current schema version (3) is NOT treated as absent — `readSkillLock`
returns it as-is, entries and version included, because the code only
resets when the version is strictly below the constant. -/
theorem readSkillLock_version_above_counterexample :
    readSkillLock (some { version := some 4
                          skills := some [("a", sampleEntry)]
                          dismissedFindSkillsPrompt := none
                          lastSelectedAgents := none }) ≠ createEmptyLockFile ∧
    (readSkillLock (some { version := some 4
                           skills := some [("a", sampleEntry)]
                           dismissedFindSkillsPrompt := none
                           lastSelectedAgents := none })).version ≠ CURRENT_VERSION := by
  decide

/-- C4 (amended): `readSkillLock` returns a fresh empty document (version
= current) when parsing fails, the version field is absent or not a
number, the skills map is absent, or the version is strictly below the
current constant; a document whose numeric version is at least the current
constant is returned as-is, and no field-by-field migration is ever
performed. -/
theorem readSkillLock_reset_behaviour (persisted : Option RawLockDoc) :
    (persisted = none → readSkillLock persisted = createEmptyLockFile) ∧
    (∀ d, persisted = some d → d.version = none →
      readSkillLock persisted = createEmptyLockFile) ∧
    (∀ d, persisted = some d → d.skills = none →
      readSkillLock persisted = createEmptyLockFile) ∧
    (∀ d v, persisted = some d → d.version = some v → v < CURRENT_VERSION →
      readSkillLock persisted = createEmptyLockFile) ∧
    (∀ d v sk, persisted = some d → d.version = some v → d.skills = some sk →
      CURRENT_VERSION ≤ v →
      readSkillLock persisted =
        { version := v
          skills := sk
          dismissedFindSkillsPrompt := d.dismissedFindSkillsPrompt
          lastSelectedAgents := d.lastSelectedAgents }) := by
  refine ⟨?_, ?_, ?_, ?_, ?_⟩
  · rintro rfl; rfl
  · rintro d rfl hv
    simp [readSkillLock, hv]
  · rintro d rfl hs
    cases hv : d.version <;> simp [readSkillLock, hv, hs]
  · rintro d v rfl hv hlt
    cases hs : d.skills <;> simp [readSkillLock, hv, hs, hlt]
  · rintro d v sk rfl hv hs hge
    have : ¬ v < CURRENT_VERSION := not_lt.mpr hge
    simp [readSkillLock, hv, hs, this]

/-- C4 witness: the reset and pass-through behaviour at concrete
documents (version 2 resets, version 3 is returned as-is). -/
theorem readSkillLock_reset_behaviour_witness :
    readSkillLock (some { version := some 2
                          skills := some [("a", sampleEntry)]
                          dismissedFindSkillsPrompt := none
                          lastSelectedAgents := none }) = createEmptyLockFile ∧
    readSkillLock (some sampleDoc) =
      { version := CURRENT_VERSION
        skills := [("my-skill", sampleEntry), ("other", sampleEntry)]
        dismissedFindSkillsPrompt := some true
        lastSelectedAgents := some ["cursor"] } := by
  constructor
  · exact (readSkillLock_reset_behaviour _).2.2.2.1 _ 2 rfl rfl (by decide)
  · exact (readSkillLock_reset_behaviour _).2.2.2.2 sampleDoc CURRENT_VERSION
      [("my-skill", sampleEntry), ("other", sampleEntry)] rfl rfl rfl (by decide)

/-! ## C5: addSkillToLock key and timestamps -/

/-- C5 counterexample: `addSkillToLock` does not sanitize the name before
using it as the entry key — adding under the raw name `"My Skill"` leaves
nothing under the sanitized key `"my-skill"` and stores the entry under
the raw key instead (the sanitization happens in the callers and in the
lookup/removal functions, not here). -/
theorem addSkillToLock_unsanitized_key_counterexample :
    sanitizeName "My Skill" ≠ "My Skill" ∧
    List.lookup (sanitizeName "My Skill")
      (addSkillToLock "My Skill" sampleMeta "2026-02-01T00:00:00.000Z"
        (some { version := some CURRENT_VERSION
                skills := some []
                dismissedFindSkillsPrompt := none
                lastSelectedAgents := none })).skills = none ∧
    (List.lookup "My Skill"
      (addSkillToLock "My Skill" sampleMeta "2026-02-01T00:00:00.000Z"
        (some { version := some CURRENT_VERSION
                skills := some []
                dismissedFindSkillsPrompt := none
                lastSelectedAgents := none })).skills).isSome = true := by
  refine ⟨by decide, by decide, by decide⟩

/-- C5 (amended): `addSkillToLock` uses the given name verbatim as the
entry key (its callers pass an already sanitized name); it preserves an
existing entry's `installedAt` whenever that timestamp is truthy (a
non-empty string, which every entry the code writes has), and it always
sets `updatedAt` to the current time. -/
theorem addSkillToLock_key_and_timestamps (name : String) (meta : LockMetadata)
    (now : String) (persisted : Option RawLockDoc) :
    (∀ prev, List.lookup name (readSkillLock persisted).skills = some prev →
      ¬ prev.installedAt = "" →
      List.lookup name (addSkillToLock name meta now persisted).skills =
        some { source := meta.source
               sourceType := meta.sourceType
               sourceUrl := meta.sourceUrl
               skillPath := meta.skillPath
               skillFolderHash := meta.skillFolderHash
               gitCommitHash := meta.gitCommitHash
               installedAt := prev.installedAt
               updatedAt := now }) ∧
    (List.lookup name (readSkillLock persisted).skills = none →
      List.lookup name (addSkillToLock name meta now persisted).skills =
        some { source := meta.source
               sourceType := meta.sourceType
               sourceUrl := meta.sourceUrl
               skillPath := meta.skillPath
               skillFolderHash := meta.skillFolderHash
               gitCommitHash := meta.gitCommitHash
               installedAt := now
               updatedAt := now }) := by
  constructor
  · intro prev hprev hne
    unfold addSkillToLock
    simp only [hprev, hne, if_false]
    exact lookup_objSet_self _ _ _
  · intro hnone
    unfold addSkillToLock
    simp only [hnone]
    exact lookup_objSet_self _ _ _

/-- C5 witness: reinstalling `"my-skill"` over the sample document keeps
the original `installedAt` and refreshes `updatedAt`. -/
theorem addSkillToLock_key_and_timestamps_witness :
    List.lookup "my-skill"
      (addSkillToLock "my-skill" sampleMeta "2026-03-01T00:00:00.000Z"
        (some sampleDoc)).skills =
      some { source := "github"
             sourceType := "git"
             sourceUrl := "https://example.com/r"
             skillPath := none
             skillFolderHash := "hash1"
             gitCommitHash := none
             installedAt := "2026-01-01T00:00:00.000Z"
             updatedAt := "2026-03-01T00:00:00.000Z" } := by
  exact (addSkillToLock_key_and_timestamps "my-skill" sampleMeta
    "2026-03-01T00:00:00.000Z" (some sampleDoc)).1 sampleEntry (by decide) (by decide)

/-! ## C10: frame property of upsert and removal -/

/-- C10: on a validly parsed document at the current schema version,
`addSkillToLock` and `removeSkillFromLock` leave every entry under any
other key, the version, the last-selected-agents list, and the dismissed
flags unchanged in the written document. -/
theorem lock_mutations_frame (name : String) (meta : LockMetadata) (now : String)
    (d : RawLockDoc) (sk : List (String × SkillLockEntry))
    (hv : d.version = some CURRENT_VERSION) (hs : d.skills = some sk) :
    (∀ k, ¬ k = name →
      List.lookup k (addSkillToLock name meta now (some d)).skills =
        List.lookup k sk) ∧
    (addSkillToLock name meta now (some d)).version = CURRENT_VERSION ∧
    (addSkillToLock name meta now (some d)).lastSelectedAgents = d.lastSelectedAgents ∧
    (addSkillToLock name meta now (some d)).dismissedFindSkillsPrompt =
      d.dismissedFindSkillsPrompt ∧
    (∀ k, ¬ k = sanitizeName name →
      List.lookup k (removeSkillFromLock name (some d)).skills =
        List.lookup k sk) ∧
    (removeSkillFromLock name (some d)).version = CURRENT_VERSION ∧
    (removeSkillFromLock name (some d)).lastSelectedAgents = d.lastSelectedAgents ∧
    (removeSkillFromLock name (some d)).dismissedFindSkillsPrompt =
      d.dismissedFindSkillsPrompt := by
  have hread : readSkillLock (some d) =
      { version := CURRENT_VERSION
        skills := sk
        dismissedFindSkillsPrompt := d.dismissedFindSkillsPrompt
        lastSelectedAgents := d.lastSelectedAgents } := by
    simp [readSkillLock, hv, hs]
  refine ⟨?_, ?_, ?_, ?_, ?_, ?_, ?_, ?_⟩
  · intro k hk
    unfold addSkillToLock
    simp only [hread]
    exact lookup_objSet_other _ _ _ _ hk
  · unfold addSkillToLock; simp [hread]
  · unfold addSkillToLock; simp [hread]
  · unfold addSkillToLock; simp [hread]
  · intro k hk
    unfold removeSkillFromLock
    simp only [hread]
    exact lookup_objDelete_other _ _ _ hk
  · unfold removeSkillFromLock; simp [hread]
  · unfold removeSkillFromLock; simp [hread]
  · unfold removeSkillFromLock; simp [hread]

/-- C10 witness: mutating `"my-skill"` in the sample document leaves the
entry under `"other"` and the auxiliary fields untouched. -/
theorem lock_mutations_frame_witness :
    List.lookup "other"
      (addSkillToLock "my-skill" sampleMeta "2026-03-01T00:00:00.000Z"
        (some sampleDoc)).skills = some sampleEntry ∧
    List.lookup "other" (removeSkillFromLock "my-skill" (some sampleDoc)).skills =
      some sampleEntry ∧
    (addSkillToLock "my-skill" sampleMeta "2026-03-01T00:00:00.000Z"
      (some sampleDoc)).lastSelectedAgents = some ["cursor"] := by
  have h := lock_mutations_frame "my-skill" sampleMeta "2026-03-01T00:00:00.000Z"
    sampleDoc [("my-skill", sampleEntry), ("other", sampleEntry)] rfl rfl
  refine ⟨?_, ?_, ?_⟩
  · rw [h.1 "other" (by decide)]; decide
  · rw [h.2.2.2.2.1 "other" (by decide)]; decide
  · rw [h.2.2.1]; rfl

/-! ## C6: update detection fingerprint logic -/

/-- C6 counterexample: the git-commit-hash variant of `checkForUpdates`
(one of the two implementations the claim covers) reports `updateType =
"git"`, not `"content"`, when both fingerprints are present and differ. -/
theorem checkForUpdates_git_type_counterexample :
    (checkForUpdatesGit "skill" (some "aaa") (some "bbb")).hasUpdate = true ∧
    (checkForUpdatesGit "skill" (some "aaa") (some "bbb")).updateType ≠ "content" ∧
    (checkForUpdatesGit "skill" (some "aaa") (some "bbb")).updateType = "git" := by
  decide

/-- C6 (amended): in both update detectors, an absent fingerprint on
either side yields `hasUpdate = false` and `updateType = "none"`; when
both fingerprints are present (and non-empty, as real hashes are),
`hasUpdate` holds exactly when they differ, and the update type on a
difference is `"content"` in the content-hash detector and `"git"` in the
commit-hash detector, `"none"` otherwise. -/
theorem checkForUpdates_fingerprint_logic (n : String) (l r : Option String) :
    ((l = none ∨ r = none) →
      (checkForUpdatesContent n l r).hasUpdate = false ∧
      (checkForUpdatesContent n l r).updateType = "none" ∧
      (checkForUpdatesGit n l r).hasUpdate = false ∧
      (checkForUpdatesGit n l r).updateType = "none") ∧
    (∀ ls rs, l = some ls → r = some rs → ¬ ls = "" → ¬ rs = "" →
      ((checkForUpdatesContent n l r).hasUpdate = true ↔ ¬ ls = rs) ∧
      (checkForUpdatesContent n l r).updateType =
        (if ls = rs then "none" else "content") ∧
      ((checkForUpdatesGit n l r).hasUpdate = true ↔ ¬ ls = rs) ∧
      (checkForUpdatesGit n l r).updateType = (if ls = rs then "none" else "git")) := by
  constructor
  · intro habs
    rcases habs with rfl | rfl
    · simp [checkForUpdatesContent, checkForUpdatesGit, strFalsy]
    · simp [checkForUpdatesContent, checkForUpdatesGit, strFalsy]
  · rintro ls rs rfl rfl hl hr
    have hls : ls.isEmpty = false := by
      cases hempty : ls.isEmpty
      · rfl
      · exact absurd ((String.isEmpty_iff ls).mp hempty) hl
    have hrs : rs.isEmpty = false := by
      cases hempty : rs.isEmpty
      · rfl
      · exact absurd ((String.isEmpty_iff rs).mp hempty) hr
    by_cases heq : ls = rs <;>
      simp [checkForUpdatesContent, checkForUpdatesGit, strFalsy, strOrEmpty,
        hls, hrs, heq]

/-- C6 witness: concrete instances of the absent-side rule and of the
present-and-different rule for both detectors. -/
theorem checkForUpdates_fingerprint_logic_witness :
    (checkForUpdatesContent "s" none (some "aaa")).updateType = "none" ∧
    (checkForUpdatesContent "s" (some "aaa") (some "bbb")).updateType = "content" ∧
    (checkForUpdatesGit "s" (some "aaa") (some "aaa")).hasUpdate = false := by
  refine ⟨((checkForUpdates_fingerprint_logic "s" none (some "aaa")).1
    (Or.inl rfl)).2.1, ?_, ?_⟩
  · have h := ((checkForUpdates_fingerprint_logic "s" (some "aaa") (some "bbb")).2
      "aaa" "bbb" rfl rfl (by decide) (by decide)).2.1
    simpa using h
  · have h := ((checkForUpdates_fingerprint_logic "s" (some "aaa") (some "aaa")).2
      "aaa" "aaa" rfl rfl (by decide) (by decide)).2.2.1
    simp only [not_true] at h
    exact Bool.eq_false_iff.mpr (fun hb => h.mp hb)

/-! ## Helper lemmas: flat filesystem updates -/

theorem fsSet_self (fs : Fs) (p : String) (n : Option FsNode) : fsSet fs p n p = n := by
  simp [fsSet]

theorem fsSet_other (fs : Fs) (p q : String) (n : Option FsNode) (h : ¬ q = p) :
    fsSet fs p n q = fs q := by
  simp [fsSet, h]

theorem cleanAndCreateDirectory_ok (env : FsEnv) (fs : Fs) (p : String)
    (h : env.cleanErr p = none) :
    cleanAndCreateDirectory env fs p =
      (fsSet (fsSet fs p none) p (some (.tree (.dir []))), none) := by
  simp [cleanAndCreateDirectory, h]

theorem copyDirectory_ok (env : FsEnv) (fs : Fs) (src dest : String) (t : FsTree)
    (hsrc : fs src = some (.tree t)) (h : env.copyErr src dest = none) :
    copyDirectory env fs src dest = (fsSet fs dest (some (.tree (copyTree t))), none) := by
  simp [copyDirectory, hsrc, h]

theorem createSymlink_fail (env : FsEnv) (fs : Fs) (target linkPath : String)
    (h : env.symlinkOk = false) :
    createSymlink env fs target linkPath = (fs, false) := by
  simp [createSymlink, h]

/-! ## C7: copy mode writes only the target directory -/

/-- C7: a copy-mode install only ever writes the agent's target directory
(so the canonical directory — a different path — is never created or
modified, in any branch including failures), and a successful copy-mode
install returns success with mode `copy` and no canonical path recorded,
leaving the filtered copy of the source at the target. -/
theorem copy_mode_install (env : FsEnv) (skill : DiscoveredSkill) (agent : Agent)
    (opts : InstallOptions) (procCwd home : String) (fs : Fs)
    (hmode : opts.mode = some InstallMode.copy) :
    (∀ p, ¬ p = installAgentDir skill agent opts procCwd →
      (installSkillForAgent env skill agent opts procCwd home fs).2 p = fs p) ∧
    (¬ (opts.global.getD false = true ∧ agent.globalSkillsDir = none) →
     Installer.isPathSafe procCwd (installCanonicalBase opts procCwd home)
       (installCanonicalDir skill opts procCwd home) = true →
     Installer.isPathSafe procCwd (installAgentBase agent opts procCwd)
       (installAgentDir skill agent opts procCwd) = true →
     env.cleanErr (installAgentDir skill agent opts procCwd) = none →
     ∀ t, fs skill.path = some (FsNode.tree t) →
     ¬ skill.path = installAgentDir skill agent opts procCwd →
     env.copyErr skill.path (installAgentDir skill agent opts procCwd) = none →
     (installSkillForAgent env skill agent opts procCwd home fs).1 =
       { success := true
         path := installAgentDir skill agent opts procCwd
         canonicalPath := none
         mode := .copy
         symlinkFailed := none
         error := none } ∧
     (installSkillForAgent env skill agent opts procCwd home fs).2
       (installAgentDir skill agent opts procCwd) = some (.tree (copyTree t))) := by
  constructor
  · intro p hp
    unfold installSkillForAgent
    simp only [hmode, Option.getD_some]
    split
    · rfl
    · split
      · rfl
      · split
        · rfl
        · rw [if_pos trivial]
          rcases hclean : env.cleanErr (installAgentDir skill agent opts procCwd) with _ | e
          · simp only [cleanAndCreateDirectory, hclean]
            rcases hsrc : fsSet (fsSet fs (installAgentDir skill agent opts procCwd) none)
                (installAgentDir skill agent opts procCwd)
                (some (FsNode.tree (FsTree.dir []))) skill.path with _ | node
            · simp only [copyDirectory, hsrc, fsSet_other _ _ _ _ hp]
            · cases node with
              | tree t =>
                rcases hcp : env.copyErr skill.path (installAgentDir skill agent opts procCwd)
                    with _ | e
                · simp only [copyDirectory, hsrc, hcp]
                  simp [fsSet_other _ _ _ _ hp]
                · simp only [copyDirectory, hsrc, hcp]
                  simp [fsSet_other _ _ _ _ hp]
              | symlinkTo tgt =>
                simp only [copyDirectory, hsrc, fsSet_other _ _ _ _ hp]
          · simp only [cleanAndCreateDirectory, hclean]
            simp [fsSet_other _ _ _ _ hp]
  · intro hscope hsafe1 hsafe2 hclean t hsrc hne hcp
    unfold installSkillForAgent
    simp only [hmode, Option.getD_some]
    rw [if_neg hscope, if_neg (by simp [hsafe1]), if_neg (by simp [hsafe2]), if_pos trivial]
    have hsrc1 : fsSet (fsSet fs (installAgentDir skill agent opts procCwd) none)
        (installAgentDir skill agent opts procCwd)
        (some (FsNode.tree (FsTree.dir []))) skill.path = some (FsNode.tree t) := by
      rw [fsSet_other _ _ _ _ hne, fsSet_other _ _ _ _ hne]
      exact hsrc
    simp only [cleanAndCreateDirectory, hclean, copyDirectory, hsrc1, hcp]
    exact ⟨trivial, fsSet_self _ _ _⟩

/-! ## Concrete installer inputs shared by witnesses and counterexamples -/

/-- A sample discovered skill. -/
def skillEx : DiscoveredSkill :=
  { name := "My Skill"
    description := "sample"
    path := "/tmp/skills-src/my-skill"
    rawContent := "raw" }

/-- A sample agent target. -/
def agentEx : Agent :=
  { displayName := "Cursor"
    skillsDir := ".cursor/skills"
    globalSkillsDir := some "/home/u/.cursor/skills" }

/-- A sample agent target with no global skills directory. -/
def agentNoGlobalEx : Agent :=
  { displayName := "Replit"
    skillsDir := ".replit/skills"
    globalSkillsDir := none }

/-- An environment in which every primitive succeeds. -/
def envOk : FsEnv :=
  { cleanErr := fun _ => none
    copyErr := fun _ _ => none
    symlinkOk := true }

/-- An environment in which everything succeeds except link creation. -/
def envNoLink : FsEnv :=
  { cleanErr := fun _ => none
    copyErr := fun _ _ => none
    symlinkOk := false }

/-- The content of the sample skill source. -/
def srcTreeEx : FsTree :=
  .dir [("SKILL.md", .file "content"), ("README.md", .file "readme"), ("_private", .dir [])]

/-- A filesystem holding only the sample skill source. -/
def fsEx : Fs :=
  fun p => if p = "/tmp/skills-src/my-skill" then some (.tree srcTreeEx) else none

/-- Project-scope copy-mode options with cwd `/proj`. -/
def optsCopyEx : InstallOptions :=
  { global := some false, cwd := some "/proj", mode := some .copy }

/-- Project-scope link-mode options with cwd `/proj`. -/
def optsLinkEx : InstallOptions :=
  { global := some false, cwd := some "/proj", mode := some .symlink }

/-- C7 witness: copy-mode install of the sample skill succeeds with mode
`copy` and no canonical path, and the canonical directory
`/proj/.agents/skills/my-skill` stays untouched (absent). -/
theorem copy_mode_install_witness :
    (installSkillForAgent envOk skillEx agentEx optsCopyEx "/proj" "/home/u" fsEx).1 =
      { success := true
        path := "/proj/.cursor/skills/my-skill"
        canonicalPath := none
        mode := .copy
        symlinkFailed := none
        error := none } ∧
    (installSkillForAgent envOk skillEx agentEx optsCopyEx "/proj" "/home/u" fsEx).2
      "/proj/.agents/skills/my-skill" = none := by
  have h := copy_mode_install envOk skillEx agentEx optsCopyEx "/proj" "/home/u" fsEx rfl
  constructor
  · have hr := (h.2 (by decide) (by decide) (by decide) rfl srcTreeEx rfl (by decide) rfl).1
    rw [hr]
    decide
  · rw [h.1 "/proj/.agents/skills/my-skill" (by decide)]
    rfl

/-! ## C1: link-mode install with failing link creation -/

/-- C1: in link mode, when symlink creation fails (and the surrounding
I/O primitives succeed), `installSkillForAgent` still returns
`success = true` with `symlinkFailed = true` and `canonicalPath` set to
the canonical directory; the canonical directory holds the populated
shared copy, and the target directory ends up holding a full independent
copy of the (filtered) source content — exactly what a copy-mode install
writes to the target path. -/
theorem link_fallback_install (env : FsEnv) (skill : DiscoveredSkill) (agent : Agent)
    (opts : InstallOptions) (procCwd home : String) (fs : Fs) (t : FsTree)
    (hmode : opts.mode.getD InstallMode.symlink = InstallMode.symlink)
    (hscope : ¬ (opts.global.getD false = true ∧ agent.globalSkillsDir = none))
    (hsafe1 : Installer.isPathSafe procCwd (installCanonicalBase opts procCwd home)
      (installCanonicalDir skill opts procCwd home) = true)
    (hsafe2 : Installer.isPathSafe procCwd (installAgentBase agent opts procCwd)
      (installAgentDir skill agent opts procCwd) = true)
    (hsym : env.symlinkOk = false)
    (hclean1 : env.cleanErr (installCanonicalDir skill opts procCwd home) = none)
    (hclean2 : env.cleanErr (installAgentDir skill agent opts procCwd) = none)
    (hcp1 : env.copyErr skill.path (installCanonicalDir skill opts procCwd home) = none)
    (hcp2 : env.copyErr skill.path (installAgentDir skill agent opts procCwd) = none)
    (hsrc : fs skill.path = some (FsNode.tree t))
    (hne1 : ¬ skill.path = installCanonicalDir skill opts procCwd home)
    (hne2 : ¬ skill.path = installAgentDir skill agent opts procCwd)
    (hne3 : ¬ installAgentDir skill agent opts procCwd =
      installCanonicalDir skill opts procCwd home) :
    (installSkillForAgent env skill agent opts procCwd home fs).1 =
      { success := true
        path := installAgentDir skill agent opts procCwd
        canonicalPath := some (installCanonicalDir skill opts procCwd home)
        mode := .symlink
        symlinkFailed := some true
        error := none } ∧
    (installSkillForAgent env skill agent opts procCwd home fs).2
      (installAgentDir skill agent opts procCwd) = some (.tree (copyTree t)) ∧
    (installSkillForAgent env skill agent opts procCwd home fs).2
      (installCanonicalDir skill opts procCwd home) = some (.tree (copyTree t)) := by
  have hne3' : ¬ installCanonicalDir skill opts procCwd home =
      installAgentDir skill agent opts procCwd := fun h => hne3 h.symm
  unfold installSkillForAgent
  simp only [hmode]
  rw [if_neg hscope, if_neg (by simp [hsafe1]), if_neg (by simp [hsafe2]),
    if_neg (by decide)]
  have hsrc1 : fsSet (fsSet fs (installCanonicalDir skill opts procCwd home) none)
      (installCanonicalDir skill opts procCwd home)
      (some (FsNode.tree (FsTree.dir []))) skill.path = some (FsNode.tree t) := by
    rw [fsSet_other _ _ _ _ hne1, fsSet_other _ _ _ _ hne1]
    exact hsrc
  simp only [cleanAndCreateDirectory_ok env fs
    (installCanonicalDir skill opts procCwd home) hclean1]
  simp only [copyDirectory_ok env _ skill.path
    (installCanonicalDir skill opts procCwd home) t hsrc1 hcp1]
  simp only [createSymlink_fail env _
    (installCanonicalDir skill opts procCwd home)
    (installAgentDir skill agent opts procCwd) hsym]
  simp only [cleanAndCreateDirectory_ok env _
    (installAgentDir skill agent opts procCwd) hclean2]
  have hsrc2 : fsSet (fsSet (fsSet (fsSet (fsSet fs
        (installCanonicalDir skill opts procCwd home) none)
        (installCanonicalDir skill opts procCwd home)
        (some (FsNode.tree (FsTree.dir []))))
        (installCanonicalDir skill opts procCwd home)
        (some (FsNode.tree (copyTree t))))
        (installAgentDir skill agent opts procCwd) none)
        (installAgentDir skill agent opts procCwd)
        (some (FsNode.tree (FsTree.dir []))) skill.path = some (FsNode.tree t) := by
    rw [fsSet_other _ _ _ _ hne2, fsSet_other _ _ _ _ hne2,
      fsSet_other _ _ _ _ hne1, fsSet_other _ _ _ _ hne1, fsSet_other _ _ _ _ hne1]
    exact hsrc
  simp only [copyDirectory_ok env _ skill.path
    (installAgentDir skill agent opts procCwd) t hsrc2 hcp2]
  refine ⟨trivial, fsSet_self _ _ _, ?_⟩
  rw [fsSet_other _ _ _ _ hne3', fsSet_other _ _ _ _ hne3',
    fsSet_other _ _ _ _ hne3']
  exact fsSet_self _ _ _

/-- C1 witness: link-mode install of the sample skill with link creation
failing: success with `symlinkFailed`, canonical populated, and the target
holding the filtered copy (`README.md` and `_private` excluded). -/
theorem link_fallback_install_witness :
    (installSkillForAgent envNoLink skillEx agentEx optsLinkEx "/proj" "/home/u" fsEx).1 =
      { success := true
        path := "/proj/.cursor/skills/my-skill"
        canonicalPath := some "/proj/.agents/skills/my-skill"
        mode := .symlink
        symlinkFailed := some true
        error := none } ∧
    (installSkillForAgent envNoLink skillEx agentEx optsLinkEx "/proj" "/home/u" fsEx).2
      "/proj/.cursor/skills/my-skill" =
      some (.tree (.dir [("SKILL.md", .file "content")])) := by
  have h := link_fallback_install envNoLink skillEx agentEx optsLinkEx "/proj" "/home/u"
    fsEx srcTreeEx rfl (by decide) (by decide) (by decide) rfl rfl rfl rfl rfl rfl
    (by decide) (by decide) (by decide)
  constructor
  · rw [h.1]
    decide
  · have h2 := h.2.1
    have hdir : installAgentDir skillEx agentEx optsLinkEx "/proj" =
        "/proj/.cursor/skills/my-skill" := by decide
    rw [hdir] at h2
    rw [h2]
    have hcopy : copyTree srcTreeEx = FsTree.dir [("SKILL.md", FsTree.file "content")] := by
      simp +decide [srcTreeEx, copyTree, copyEntries, isExcluded, isDirT, headUnderscore]
    rw [hcopy]

/-- C9 counterexample: an I/O failure whose thrown `Error` carries an
empty message is reported with `error = some ""` — an empty error string,
contradicting the claim that every failure carries a non-empty one. -/
theorem install_empty_error_message_counterexample :
    (installSkillForAgent
      { cleanErr := fun _ => none
        copyErr := fun _ _ => some (JsThrow.err "")
        symlinkOk := true }
      skillEx agentEx optsCopyEx "/proj" "/home/u" fsEx).1.success = false ∧
    (installSkillForAgent
      { cleanErr := fun _ => none
        copyErr := fun _ _ => some (JsThrow.err "")
        symlinkOk := true }
      skillEx agentEx optsCopyEx "/proj" "/home/u" fsEx).1.error = some "" := by
  constructor <;> rfl

/-- C9 witness: the unsupported-global-scope exit at a concrete agent with
no global skills directory, and the well-behaved-environment non-empty
error guarantee at a concrete failing run (missing source directory). -/
theorem install_error_reporting_witness :
    (installSkillForAgent envOk skillEx agentNoGlobalEx
      { global := some true, cwd := some "/proj", mode := some .copy }
      "/proj" "/home/u" fsEx).1.error =
      some "Replit does not support global skill installation" ∧
    (∃ m, (installSkillForAgent envOk skillEx agentEx optsCopyEx
      "/proj" "/home/u" (fun _ => none)).1.error = some m ∧ ¬ m = "") := by
  constructor
  · exact ((install_error_reporting envOk skillEx agentNoGlobalEx
      { global := some true, cwd := some "/proj", mode := some .copy }
      "/proj" "/home/u" fsEx).2.1 ⟨rfl, rfl⟩).2.1
  · exact (install_error_reporting envOk skillEx agentEx optsCopyEx
      "/proj" "/home/u" (fun _ => none)).2.2.2
      (fun p => by simp [envOk]) (fun a b => by simp [envOk]) (by rfl)

/-! ## C8: matcher strategy order -/

/-- All elements up to and including the first one satisfying `p` (the
paths a short-circuiting probe loop actually visits). -/
def takeThrough (p : String → Bool) : List String → List String
  | [] => []
  | x :: rest => if p x then [x] else x :: takeThrough p rest

/-- The probe paths derived from a candidate-name list: each name joined
to the agent base, keeping only those passing the registry path-safety
check (the loop `continue`s past unsafe ones without a `stat`). -/
def safeProbePaths (agentBase : String) (names : List String) : List String :=
  names.filterMap (fun n =>
    let d := joinP agentBase n
    if Registry.isPathSafe agentBase d then some d else none)

theorem probeNames_spec (statOk : String → Bool) (agentBase : String)
    (names : List String) :
    probeNames statOk agentBase names =
      ((safeProbePaths agentBase names).any statOk,
        takeThrough statOk (safeProbePaths agentBase names)) := by
  induction names with
  | nil => rfl
  | cons n rest ih =>
    by_cases hsafe : Registry.isPathSafe agentBase (joinP agentBase n) = true
    · by_cases hstat : statOk (joinP agentBase n) = true
      · simp [probeNames, safeProbePaths, takeThrough, hsafe, hstat]
      · simp only [Bool.not_eq_true] at hstat
        simp [probeNames, safeProbePaths, takeThrough, hsafe, hstat, ih]
    · simp only [Bool.not_eq_true] at hsafe
      simp [probeNames, safeProbePaths, takeThrough, hsafe, ih]

theorem jsDedup_mem (l : List String) (x : String) : x ∈ jsDedup l ↔ x ∈ l := by
  match l with
  | [] => simp [jsDedup]
  | y :: rest =>
    rw [jsDedup]
    constructor
    · intro h
      rcases List.mem_cons.mp h with rfl | h2
      · exact List.mem_cons_self _ _
      · have h3 := (jsDedup_mem (rest.filter (fun z => ¬ z = y)) x).mp h2
        exact List.mem_cons_of_mem _ (List.mem_of_mem_filter h3)
    · intro h
      rcases List.mem_cons.mp h with rfl | h2
      · exact List.mem_cons_self _ _
      · by_cases hxy : x = y
        · subst hxy
          exact List.mem_cons_self _ _
        · have hmem : x ∈ rest.filter (fun z => ¬ z = y) :=
            List.mem_filter.mpr ⟨h2, by simp [hxy]⟩
          exact List.mem_cons_of_mem _ ((jsDedup_mem _ x).mpr hmem)
termination_by l.length
decreasing_by
  · exact Nat.lt_succ_of_le (List.length_filter_le _ _)
  · exact Nat.lt_succ_of_le (List.length_filter_le _ _)

theorem any_jsDedup (l : List String) (p : String → Bool) :
    (jsDedup l).any p = l.any p := by
  cases h1 : (jsDedup l).any p <;> cases h2 : l.any p
  · rfl
  · rcases List.any_eq_true.mp h2 with ⟨x, hx, hpx⟩
    have : (jsDedup l).any p = true :=
      List.any_eq_true.mpr ⟨x, (jsDedup_mem l x).mpr hx, hpx⟩
    rw [h1] at this
    cases this
  · rcases List.any_eq_true.mp h1 with ⟨x, hx, hpx⟩
    have : l.any p = true :=
      List.any_eq_true.mpr ⟨x, (jsDedup_mem l x).mp hx, hpx⟩
    rw [h2] at this
    cases this
  · rfl

theorem any_safeProbePaths (agentBase : String) (names : List String)
    (statOk : String → Bool) :
    (safeProbePaths agentBase names).any statOk =
      names.any (fun n =>
        Registry.isPathSafe agentBase (joinP agentBase n) &&
          statOk (joinP agentBase n)) := by
  induction names with
  | nil => rfl
  | cons n rest ih =>
    by_cases hsafe : Registry.isPathSafe agentBase (joinP agentBase n) = true
    · have hcons : safeProbePaths agentBase (n :: rest) =
          joinP agentBase n :: safeProbePaths agentBase rest := by
        simp [safeProbePaths, List.filterMap_cons, hsafe]
      rw [hcons, List.any_cons, ih, List.any_cons, hsafe]
      simp
    · have hsafe' : Registry.isPathSafe agentBase (joinP agentBase n) = false := by
        simpa using hsafe
      have hcons : safeProbePaths agentBase (n :: rest) =
          safeProbePaths agentBase rest := by
        simp [safeProbePaths, List.filterMap_cons, hsafe']
      rw [hcons, ih, List.any_cons, hsafe']
      simp

/-- C8: the per-agent presence check of `listInstalledSkills` implements
spec §4.4's ordered strategies: its boolean outcome coincides with trying
(a) the canonical entry name, (b) the sanitized name, (c) the loose slug,
then (d) the descriptor scan, in that order with the first success
winning; the probe trace stops at the first successful `stat` (nothing
further is examined), and the scan runs exactly when every name probe
failed. -/
theorem checkAgentPresence_strategy_order (statOk : String → Bool)
    (agentListing : Option (List AgentDirEntry))
    (agentBase entryName declaredName : String) :
    (checkAgentPresence statOk agentListing agentBase entryName declaredName).1 =
      specPresence statOk agentListing agentBase entryName declaredName ∧
    (checkAgentPresence statOk agentListing agentBase entryName declaredName).2.1 =
      takeThrough statOk (safeProbePaths agentBase
        (jsDedup [entryName, sanitizeName declaredName, looseSlug declaredName])) ∧
    (checkAgentPresence statOk agentListing agentBase entryName declaredName).2.2 =
      !((safeProbePaths agentBase
        (jsDedup [entryName, sanitizeName declaredName, looseSlug declaredName])).any
          statOk) := by
  have hany : (safeProbePaths agentBase
      (jsDedup [entryName, sanitizeName declaredName, looseSlug declaredName])).any
        statOk =
      ((Registry.isPathSafe agentBase (joinP agentBase entryName) &&
          statOk (joinP agentBase entryName)) ||
        ((Registry.isPathSafe agentBase (joinP agentBase (sanitizeName declaredName)) &&
          statOk (joinP agentBase (sanitizeName declaredName))) ||
        (Registry.isPathSafe agentBase (joinP agentBase (looseSlug declaredName)) &&
          statOk (joinP agentBase (looseSlug declaredName))))) := by
    rw [any_safeProbePaths, any_jsDedup]
    simp only [List.any_cons, List.any_nil, Bool.or_false]
  cases hv : (safeProbePaths agentBase
      (jsDedup [entryName, sanitizeName declaredName, looseSlug declaredName])).any
        statOk
  · have hflat := hany.symm.trans hv
    obtain ⟨h1, h23⟩ := Bool.or_eq_false_iff.mp hflat
    obtain ⟨h2, h3⟩ := Bool.or_eq_false_iff.mp h23
    have hk : checkAgentPresence statOk agentListing agentBase entryName declaredName =
        (scanFallback agentListing agentBase declaredName,
          takeThrough statOk (safeProbePaths agentBase
            (jsDedup [entryName, sanitizeName declaredName, looseSlug declaredName])),
          true) := by
      simp [checkAgentPresence, probeNames_spec, hv]
    rw [hk]
    refine ⟨?_, rfl, rfl⟩
    simp only [specPresence]
    simp [h1, h2, h3]
  · have hflat := hany.symm.trans hv
    have hABC : ((Registry.isPathSafe agentBase (joinP agentBase entryName) &&
          statOk (joinP agentBase entryName)) ||
        (Registry.isPathSafe agentBase (joinP agentBase (sanitizeName declaredName)) &&
          statOk (joinP agentBase (sanitizeName declaredName))) ||
        (Registry.isPathSafe agentBase (joinP agentBase (looseSlug declaredName)) &&
          statOk (joinP agentBase (looseSlug declaredName)))) = true := by
      rw [Bool.or_assoc]
      exact hflat
    have hk : checkAgentPresence statOk agentListing agentBase entryName declaredName =
        (true,
          takeThrough statOk (safeProbePaths agentBase
            (jsDedup [entryName, sanitizeName declaredName, looseSlug declaredName])),
          false) := by
      simp [checkAgentPresence, probeNames_spec, hv]
    rw [hk]
    refine ⟨?_, rfl, rfl⟩
    simp only [specPresence]
    rw [hABC]
    simp

/-! ## C3: idempotence of the sanitizer -/

/-- No two adjacent hyphens. -/
def noDoubleHyphen : List Char → Bool
  | [] => true
  | [_] => true
  | a :: b :: rest => !(a == '-' && b == '-') && noDoubleHyphen (b :: rest)

theorem noDouble_tail (a : Char) (l : List Char) (h : noDoubleHyphen (a :: l) = true) :
    noDoubleHyphen l = true := by
  cases l with
  | nil => rfl
  | cons b rest =>
    simp only [noDoubleHyphen, Bool.and_eq_true] at h
    exact h.2

theorem noDouble_cons_of (a : Char) (l : List Char)
    (h1 : ∀ hd, l.head? = some hd → (a == '-' && hd == '-') = false)
    (h2 : noDoubleHyphen l = true) : noDoubleHyphen (a :: l) = true := by
  cases l with
  | nil => rfl
  | cons b rest =>
    simp only [noDoubleHyphen, Bool.and_eq_true]
    refine ⟨?_, h2⟩
    have := h1 b rfl
    simp [this]

theorem noDouble_head_false (a b : Char) (rest : List Char)
    (h : noDoubleHyphen (a :: b :: rest) = true) : (a == '-' && b == '-') = false := by
  simp only [noDoubleHyphen, Bool.and_eq_true] at h
  have := h.1
  simp only [Bool.not_eq_true'] at this
  exact this

theorem noDouble_append_left (s m : List Char)
    (h : noDoubleHyphen (s ++ m) = true) : noDoubleHyphen m = true := by
  induction s with
  | nil => exact h
  | cons a s' ih => exact ih (noDouble_tail a (s' ++ m) h)

theorem noDouble_append_right (m : List Char) :
    ∀ t, noDoubleHyphen (m ++ t) = true → noDoubleHyphen m = true := by
  induction m with
  | nil => intro t _; rfl
  | cons a m' ih =>
    intro t h
    apply noDouble_cons_of
    · intro hd hhd
      cases m' with
      | nil => cases hhd
      | cons b r =>
        have hb : hd = b := by
          simp only [List.head?] at hhd
          exact (Option.some.injEq _ _ ▸ hhd).symm
        subst hb
        exact noDouble_head_false a hd (r ++ t) h
    · exact ih t (noDouble_tail a (m' ++ t) h)

theorem collapseAux_chars (bad : Char → Bool) :
    ∀ (l : List Char) (b : Bool) (c : Char), c ∈ collapseAux bad b l →
      c = '-' ∨ (bad c = false ∧ c ∈ l) := by
  intro l
  induction l with
  | nil => intro b c h; simp [collapseAux] at h
  | cons a rest ih =>
    intro b c h
    by_cases ha : bad a = true
    · cases b with
      | true =>
        simp only [collapseAux, ha, if_true] at h
        rcases ih true c h with h1 | ⟨h1, h2⟩
        · exact Or.inl h1
        · exact Or.inr ⟨h1, List.mem_cons_of_mem a h2⟩
      | false =>
        simp only [collapseAux, ha, if_true, if_false] at h
        rcases List.mem_cons.mp h with rfl | h2
        · exact Or.inl rfl
        · rcases ih true c h2 with h1 | ⟨h1, h3⟩
          · exact Or.inl h1
          · exact Or.inr ⟨h1, List.mem_cons_of_mem a h3⟩
    · have ha' : bad a = false := by simpa using ha
      simp only [collapseAux, ha', Bool.false_eq_true, if_false] at h
      rcases List.mem_cons.mp h with rfl | h2
      · exact Or.inr ⟨ha', List.mem_cons_self _ _⟩
      · rcases ih false c h2 with h1 | ⟨h1, h3⟩
        · exact Or.inl h1
        · exact Or.inr ⟨h1, List.mem_cons_of_mem a h3⟩

theorem collapseAux_true_head (bad : Char → Bool) :
    ∀ (l : List Char) (c : Char), (collapseAux bad true l).head? = some c →
      bad c = false := by
  intro l
  induction l with
  | nil => intro c h; cases h
  | cons a rest ih =>
    intro c h
    by_cases ha : bad a = true
    · simp only [collapseAux, ha, if_true] at h
      exact ih c h
    · have ha' : bad a = false := by simpa using ha
      simp only [collapseAux, ha', Bool.false_eq_true, if_false, List.head?] at h
      have : c = a := by
        exact (Option.some.injEq _ _ ▸ h).symm
      subst this
      exact ha'

theorem collapseAux_noDouble (bad : Char → Bool) (hb : bad '-' = true) :
    ∀ (l : List Char) (b : Bool), noDoubleHyphen (collapseAux bad b l) = true := by
  intro l
  induction l with
  | nil => intro b; rfl
  | cons a rest ih =>
    intro b
    by_cases ha : bad a = true
    · cases b with
      | true =>
        simpa [collapseAux, ha] using ih true
      | false =>
        simp only [collapseAux, ha, if_true, if_false]
        apply noDouble_cons_of
        · intro hd hhd
          have hbd := collapseAux_true_head bad rest hd hhd
          have : (hd == '-') = false := by
            apply beq_false_of_ne
            intro he
            rw [he, hb] at hbd
            cases hbd
          simp [this]
        · exact ih true
    · have ha' : bad a = false := by simpa using ha
      simp only [collapseAux, ha', Bool.false_eq_true, if_false]
      apply noDouble_cons_of
      · intro hd hhd
        have : (a == '-') = false := by
          apply beq_false_of_ne
          intro he
          rw [he, hb] at ha'
          cases ha'
        simp [this]
      · exact ih false

theorem collapseAux_id (bad : Char → Bool) (hb : bad '-' = true) :
    ∀ l : List Char, (∀ c ∈ l, bad c = false ∨ c = '-') →
      noDoubleHyphen l = true → collapseAux bad false l = l := by
  intro l
  induction l with
  | nil => intro _ _; rfl
  | cons a rest ih =>
    intro hchars hnd
    by_cases ha : bad a = true
    · have ha2 : a = '-' := by
        rcases hchars a (List.mem_cons_self a rest) with h | h
        · rw [h] at ha; cases ha
        · exact h
      subst ha2
      rw [show collapseAux bad false ('-' :: rest) = '-' :: collapseAux bad true rest from by
        simp [collapseAux, hb]]
      congr 1
      cases rest with
      | nil => rfl
      | cons d r' =>
        have hpair := noDouble_head_false '-' d r' hnd
        have hdne : (d == '-') = false := by
          cases hdd : (d == '-')
          · rfl
          · rw [hdd] at hpair
            simp at hpair
        have hd' : bad d = false := by
          rcases hchars d (List.mem_cons_of_mem _ (List.mem_cons_self d r')) with h | h
          · exact h
          · rw [h] at hdne
            simp at hdne
        have hrest := ih (fun c hc => hchars c (List.mem_cons_of_mem _ hc))
          (noDouble_tail _ _ hnd)
        calc collapseAux bad true (d :: r')
            = d :: collapseAux bad false r' := by
              simp [collapseAux, hd']
          _ = d :: r' := by
              have : collapseAux bad false (d :: r') = d :: collapseAux bad false r' := by
                simp [collapseAux, hd']
              rw [← this, hrest]
    · have ha' : bad a = false := by simpa using ha
      simp only [collapseAux, ha', Bool.false_eq_true, if_false]
      congr 1
      exact ih (fun c hc => hchars c (List.mem_cons_of_mem _ hc)) (noDouble_tail _ _ hnd)

theorem dropWhile_id_of_head (p : Char → Bool) (l : List Char)
    (h : ∀ c, l.head? = some c → p c = false) : l.dropWhile p = l := by
  cases l with
  | nil => rfl
  | cons a rest => simp [List.dropWhile_cons, h a rfl]

theorem dropTrailing_id (p : Char → Bool) (l : List Char)
    (h : ∀ c, l.getLast? = some c → p c = false) : dropTrailing p l = l := by
  unfold dropTrailing
  rw [dropWhile_id_of_head p l.reverse
    (fun c hc => h c (by rwa [List.head?_reverse] at hc))]
  exact List.reverse_reverse l

theorem head?_dropWhile (p : Char → Bool) :
    ∀ (l : List Char) (c : Char), (l.dropWhile p).head? = some c → p c = false := by
  intro l
  induction l with
  | nil => intro c h; cases h
  | cons a rest ih =>
    intro c h
    by_cases ha : p a = true
    · simp only [List.dropWhile_cons, ha, if_true] at h
      exact ih c h
    · have ha' : p a = false := by simpa using ha
      simp only [List.dropWhile_cons, ha', Bool.false_eq_true, if_false, List.head?] at h
      have : c = a := (Option.some.injEq _ _ ▸ h).symm
      subst this
      exact ha'

theorem dropTrailing_prefix (p : Char → Bool) (l : List Char) :
    dropTrailing p l <+: l := by
  have h1 : (l.reverse.dropWhile p) <:+ l.reverse := List.dropWhile_suffix p
  have h2 := List.reverse_prefix.mpr h1
  rwa [List.reverse_reverse] at h2

theorem prefix_head?_eq (l1 l2 : List Char) (h : l1 <+: l2) (hne : l1 ≠ []) :
    l2.head? = l1.head? := by
  obtain ⟨r, rfl⟩ := h
  cases l1 with
  | nil => exact absurd rfl hne
  | cons a t => rfl

theorem mem_dropTrailing (p : Char → Bool) (l : List Char) (c : Char)
    (h : c ∈ dropTrailing p l) : c ∈ l := by
  unfold dropTrailing at h
  rw [List.mem_reverse] at h
  have := (@List.dropWhile_sublist _ l.reverse p).subset h
  rwa [List.mem_reverse] at this

theorem mem_stripEdges (l : List Char) (c : Char) (h : c ∈ stripEdges l) : c ∈ l := by
  unfold stripEdges at h
  have h1 := mem_dropTrailing edgeChar _ c h
  exact (@List.dropWhile_sublist _ l edgeChar).subset h1

theorem stripEdges_head (l : List Char) (c : Char)
    (h : (stripEdges l).head? = some c) : edgeChar c = false := by
  unfold stripEdges at h
  have hne : dropTrailing edgeChar (l.dropWhile edgeChar) ≠ [] := by
    intro he
    rw [he] at h
    cases h
  have hpre := dropTrailing_prefix edgeChar (l.dropWhile edgeChar)
  have := prefix_head?_eq _ _ hpre hne
  rw [← this] at h
  exact head?_dropWhile edgeChar l c h

theorem head?_take_pos (l : List Char) (n : Nat) (hn : ¬ n = 0) :
    (l.take n).head? = l.head? := by
  cases l with
  | nil => simp
  | cons a rest =>
    cases n with
    | zero => exact absurd rfl hn
    | succ m => simp [List.take_succ_cons]

theorem map_fixed (f : Char → Char) :
    ∀ l : List Char, (∀ c ∈ l, f c = c) → l.map f = l := by
  intro l
  induction l with
  | nil => intro _; rfl
  | cons a rest ih =>
    intro h
    simp only [List.map_cons]
    rw [h a (List.mem_cons_self a rest), ih (fun c hc => h c (List.mem_cons_of_mem _ hc))]

theorem asciiLower_fixed (c : Char) (h : allowedSan c = true ∨ c = '-') :
    asciiLower c = c := by
  unfold asciiLower
  rcases h with h | h
  · simp only [allowedSan, Bool.or_eq_true, Bool.and_eq_true, decide_eq_true_eq] at h
    rcases h with ((⟨h1, h2⟩ | ⟨h1, h2⟩) | h1) | h1
    · rw [if_neg (by omega)]
    · rw [if_neg (by omega)]
    · subst h1
      rw [if_neg (by decide)]
    · subst h1
      rw [if_neg (by decide)]
  · subst h
    rw [if_neg (by decide)]

/-- The sanitizer is the identity on a non-empty list of at most 255
lower-case allowed-or-hyphen characters with no double hyphen and no edge
character at either end. -/
theorem sanitizeList_fixed (l : List Char)
    (hchars : ∀ c ∈ l, allowedSan c = true ∨ c = '-')
    (hnd : noDoubleHyphen l = true)
    (hhead : ∀ c, l.head? = some c → edgeChar c = false)
    (hlast : ∀ c, l.getLast? = some c → edgeChar c = false)
    (hlen : l.length ≤ 255)
    (hne : ¬ l = []) :
    sanitizeList l = l := by
  have hmap : l.map asciiLower = l :=
    map_fixed asciiLower l (fun c hc => asciiLower_fixed c (hchars c hc))
  have hcol : collapseRunsBy (fun c => !allowedSan c) l = l := by
    unfold collapseRunsBy
    apply collapseAux_id _ (by decide) l _ hnd
    intro c hc
    rcases hchars c hc with h | h
    · exact Or.inl (by simp [h])
    · exact Or.inr h
  have hstrip : stripEdges l = l := by
    unfold stripEdges
    rw [dropWhile_id_of_head edgeChar l hhead]
    exact dropTrailing_id edgeChar l hlast
  have hstage : sanitizeStage1 l = l := by
    unfold sanitizeStage1
    rw [hmap, hcol, hstrip]
  have htake : l.take 255 = l := List.take_of_length_le hlen
  have hEmpty : l.isEmpty = false := by
    cases l with
    | nil => exact absurd rfl hne
    | cons a rest => rfl
  simp only [sanitizeList, hstage, htake, hEmpty, Bool.false_eq_true, if_false]

/-- C3 (amended): the sanitizer is idempotent on every input whose
sanitized form does not end in a hyphen or a dot — equivalently, whenever
the 255-character truncation (applied after edge-stripping) does not
expose a new trailing hyphen or dot. -/
theorem sanitizeName_trailing_idempotent (x : String)
    (h1 : ¬ (sanitizeName x).data.getLast? = some '-')
    (h2 : ¬ (sanitizeName x).data.getLast? = some '.') :
    sanitizeName (sanitizeName x) = sanitizeName x := by
  have hmain : sanitizeList (sanitizeList x.data) = sanitizeList x.data := by
    by_cases hE : ((sanitizeStage1 x.data).take 255).isEmpty = true
    · have hs1 : sanitizeList x.data = "unnamed-skill".data := by
        simp only [sanitizeList, hE, if_true]
      rw [hs1]
      decide
    · have hE' : ((sanitizeStage1 x.data).take 255).isEmpty = false := by
        simpa using hE
      have hs1 : sanitizeList x.data = (sanitizeStage1 x.data).take 255 := by
        simp only [sanitizeList, hE', Bool.false_eq_true, if_false]
      have hne : ¬ (sanitizeStage1 x.data).take 255 = [] := by
        intro h
        rw [h] at hE'
        simp at hE'
      rw [hs1]
      have hchars_col : ∀ c ∈ collapseRunsBy (fun c => !allowedSan c)
          (x.data.map asciiLower), allowedSan c = true ∨ c = '-' := by
        intro c hc
        rcases collapseAux_chars _ _ _ c hc with h | ⟨hbc, _⟩
        · exact Or.inr h
        · exact Or.inl (by simpa using hbc)
      have hnd_col : noDoubleHyphen (collapseRunsBy (fun c => !allowedSan c)
          (x.data.map asciiLower)) = true :=
        collapseAux_noDouble _ (by decide) _ false
      have hst : sanitizeStage1 x.data =
          stripEdges (collapseRunsBy (fun c => !allowedSan c) (x.data.map asciiLower)) := rfl
      have hchars : ∀ c ∈ (sanitizeStage1 x.data).take 255,
          allowedSan c = true ∨ c = '-' := by
        intro c hc
        have hmem : c ∈ sanitizeStage1 x.data := (List.take_sublist _ _).subset hc
        rw [hst] at hmem
        exact hchars_col c (mem_stripEdges _ c hmem)
      have hnd_st : noDoubleHyphen (stripEdges (collapseRunsBy (fun c => !allowedSan c)
          (x.data.map asciiLower))) = true := by
        unfold stripEdges
        obtain ⟨s, hs⟩ := @List.dropWhile_suffix _ (collapseRunsBy
          (fun c => !allowedSan c) (x.data.map asciiLower)) edgeChar
        have hdw : noDoubleHyphen ((collapseRunsBy (fun c => !allowedSan c)
            (x.data.map asciiLower)).dropWhile edgeChar) = true := by
          apply noDouble_append_left s
          rw [hs]
          exact hnd_col
        obtain ⟨r, hr⟩ := dropTrailing_prefix edgeChar ((collapseRunsBy
          (fun c => !allowedSan c) (x.data.map asciiLower)).dropWhile edgeChar)
        apply noDouble_append_right _ r
        rw [hr]
        exact hdw
      have hnd : noDoubleHyphen ((sanitizeStage1 x.data).take 255) = true := by
        apply noDouble_append_right _ ((sanitizeStage1 x.data).drop 255)
        rw [List.take_append_drop, hst]
        exact hnd_st
      have hhead : ∀ c, ((sanitizeStage1 x.data).take 255).head? = some c →
          edgeChar c = false := by
        intro c hc
        rw [head?_take_pos _ 255 (by decide), hst] at hc
        exact stripEdges_head _ c hc
      have hlast : ∀ c, ((sanitizeStage1 x.data).take 255).getLast? = some c →
          edgeChar c = false := by
        intro c hc
        have hdata : (sanitizeName x).data = (sanitizeStage1 x.data).take 255 := hs1
        rw [hdata] at h1 h2
        cases he : edgeChar c
        · rfl
        · exfalso
          unfold edgeChar at he
          simp only [Bool.or_eq_true, decide_eq_true_eq] at he
          rcases he with he | he
          · subst he
            exact h2 hc
          · subst he
            exact h1 hc
      have hlen : ((sanitizeStage1 x.data).take 255).length ≤ 255 := by
        rw [List.length_take]
        exact Nat.min_le_left _ _
      exact sanitizeList_fixed _ hchars hnd hhead hlast hlen hne
  show String.mk (sanitizeList (sanitizeList x.data)) = String.mk (sanitizeList x.data)
  exact congrArg String.mk hmain

set_option maxRecDepth 10000 in
/-- C3 counterexample: 254 `a`s followed by `.b` sanitizes to 254 `a`s
followed by a trailing dot (the truncation to 255 happens after the
edge-stripping), and sanitizing again strips that dot, so
`sanitize(sanitize(x)) != sanitize(x)`. -/
theorem sanitizeName_not_idempotent_counterexample :
    ¬ sanitizeName (sanitizeName ⟨List.replicate 254 'a' ++ ['.', 'b']⟩) =
      sanitizeName ⟨List.replicate 254 'a' ++ ['.', 'b']⟩ := by
  decide

/-- C3 witness: a concrete application of the amended idempotence. -/
theorem sanitizeName_trailing_idempotent_witness :
    sanitizeName (sanitizeName "Git Review Before Commit") =
      sanitizeName "Git Review Before Commit" := by
  apply sanitizeName_trailing_idempotent <;> decide

/-! ## C2: characterization of the installer path-safety predicate -/

/-- A well-formed normalized absolute path segment: non-empty, without a
separator, and not a dot segment. -/
def goodSeg (s : List Char) : Prop :=
  s ≠ [] ∧ '/' ∉ s ∧ s ≠ ['.'] ∧ s ≠ ['.', '.']

theorem splitSegsAux_members :
    ∀ (l cur : List Char), '/' ∉ cur →
      ∀ s ∈ splitSegsAux l cur, s ≠ [] ∧ '/' ∉ s := by
  intro l
  induction l with
  | nil =>
    intro cur hcur s hs
    by_cases hc : cur.isEmpty = true
    · simp [splitSegsAux, hc] at hs
    · have hcur_ne : cur ≠ [] := by
        intro h
        rw [h] at hc
        exact hc rfl
      have hred : splitSegsAux [] cur = [cur.reverse] := by
        simp [splitSegsAux, hc]
      rw [hred, List.mem_singleton] at hs
      subst hs
      exact ⟨by simpa using hcur_ne, by simpa using hcur⟩
  | cons c rest ih =>
    intro cur hcur s hs
    by_cases hsl : c = '/'
    · subst hsl
      by_cases hc : cur.isEmpty = true
      · have hred : splitSegsAux ('/' :: rest) cur = splitSegsAux rest [] := by
          simp [splitSegsAux, hc]
        rw [hred] at hs
        exact ih [] (by simp) s hs
      · have hcur_ne : cur ≠ [] := by
          intro h
          rw [h] at hc
          exact hc rfl
        have hred : splitSegsAux ('/' :: rest) cur =
            cur.reverse :: splitSegsAux rest [] := by
          simp [splitSegsAux, hc]
        rw [hred] at hs
        rcases List.mem_cons.mp hs with heq | hmem
        · subst heq
          exact ⟨by simpa using hcur_ne, by simpa using hcur⟩
        · exact ih [] (by simp) s hmem
    · have hred : splitSegsAux (c :: rest) cur = splitSegsAux rest (c :: cur) := by
        simp [splitSegsAux, hsl]
      rw [hred] at hs
      exact ih (c :: cur) (by simp [hcur, Ne.symm hsl]) s hs

theorem splitSegs_members (l : List Char) :
    ∀ s ∈ splitSegs l, s ≠ [] ∧ '/' ∉ s :=
  splitSegsAux_members l [] (by simp)

theorem normSegs_foldl_members :
    ∀ (segs : List (List Char)) (acc : List (List Char)),
      (∀ s ∈ segs, s ≠ [] ∧ '/' ∉ s) → (∀ s ∈ acc, goodSeg s) →
      ∀ s ∈ segs.foldl (normStep true) acc, goodSeg s := by
  intro segs
  induction segs with
  | nil => intro acc _ hacc s hs; exact hacc s hs
  | cons seg rest ih =>
    intro acc hsegs hacc s hs
    simp only [List.foldl_cons] at hs
    have hseg := hsegs seg (List.mem_cons_self _ _)
    have hrest : ∀ s ∈ rest, s ≠ [] ∧ '/' ∉ s :=
      fun s hs => hsegs s (List.mem_cons_of_mem _ hs)
    apply ih (normStep true acc seg) hrest _ s hs
    intro u hu
    unfold normStep at hu
    by_cases h1 : seg = ['.']
    · rw [if_pos h1] at hu
      exact hacc u hu
    · rw [if_neg h1] at hu
      by_cases h2 : seg = ['.', '.']
      · rw [if_pos h2] at hu
        cases acc with
        | nil =>
          have hu' : u ∈ ([] : List (List Char)) := hu
          simp at hu'
        | cons top restAcc =>
          have htop := hacc top (List.mem_cons_self _ _)
          have hne2 : top ≠ ['.', '.'] := htop.2.2.2
          have hu' : u ∈ (if top = ['.', '.'] then seg :: top :: restAcc else restAcc) := hu
          rw [if_neg hne2] at hu'
          exact hacc u (List.mem_cons_of_mem _ hu')
      · rw [if_neg h2] at hu
        rcases List.mem_cons.mp hu with rfl | hu
        · exact ⟨hseg.1, hseg.2, h1, h2⟩
        · exact hacc u hu
  
theorem normSegs_members (segs : List (List Char))
    (h : ∀ s ∈ segs, s ≠ [] ∧ '/' ∉ s) :
    ∀ s ∈ normSegs true segs, goodSeg s := by
  intro s hs
  unfold normSegs at hs
  rw [List.mem_reverse] at hs
  exact normSegs_foldl_members segs [] h (by simp) s hs

theorem pathResolvedSegs_good (procCwd p : String) :
    ∀ s ∈ pathResolvedSegs procCwd p, goodSeg s := by
  unfold pathResolvedSegs
  by_cases habs : isAbsL p.data = true
  · rw [if_pos habs]
    exact normSegs_members _ (splitSegs_members _)
  · rw [if_neg habs]
    exact normSegs_members _ (splitSegs_members _)

theorem splitSegsAux_no_sep (s : List Char) (hs : '/' ∉ s) :
    ∀ (r cur : List Char), splitSegsAux (s ++ r) cur = splitSegsAux r (s.reverse ++ cur) := by
  induction s with
  | nil => intro r cur; rfl
  | cons c s' ih =>
    intro r cur
    have hc : c ≠ '/' := fun h => hs (h ▸ List.mem_cons_self _ _)
    have hs' : '/' ∉ s' := fun h => hs (List.mem_cons_of_mem _ h)
    have hred : splitSegsAux ((c :: s') ++ r) cur = splitSegsAux (s' ++ r) (c :: cur) := by
      simp [splitSegsAux, hc]
    rw [hred, ih hs' r (c :: cur)]
    simp

theorem splitSegs_joinChars :
    ∀ segs : List (List Char), (∀ s ∈ segs, s ≠ [] ∧ '/' ∉ s) →
      splitSegs (joinChars segs) = segs := by
  intro segs
  induction segs with
  | nil => intro _; rfl
  | cons s rest ih =>
    intro h
    have hs := h s (List.mem_cons_self _ _)
    cases rest with
    | nil =>
      show splitSegsAux (joinChars [s]) [] = [s]
      have : joinChars [s] = s := rfl
      rw [this]
      have := splitSegsAux_no_sep s hs.2 [] []
      rw [List.append_nil] at this
      rw [this]
      have hne : (s.reverse ++ []).isEmpty = false := by
        simp only [List.append_nil]
        cases hrev : s.reverse with
        | nil => exact absurd (List.reverse_eq_nil_iff.mp hrev) hs.1
        | cons a t => rfl
      simp [splitSegsAux, hne, hs.1]
    | cons s2 rest2 =>
      show splitSegsAux (joinChars (s :: s2 :: rest2)) [] = s :: s2 :: rest2
      have hjc : joinChars (s :: s2 :: rest2) = s ++ '/' :: joinChars (s2 :: rest2) := rfl
      rw [hjc, splitSegsAux_no_sep s hs.2 _ []]
      have hne : (s.reverse ++ []).isEmpty = false := by
        simp only [List.append_nil]
        cases hrev : s.reverse with
        | nil => exact absurd (List.reverse_eq_nil_iff.mp hrev) hs.1
        | cons a t => rfl
      have hred : splitSegsAux ('/' :: joinChars (s2 :: rest2)) (s.reverse ++ []) =
          (s.reverse ++ []).reverse :: splitSegsAux (joinChars (s2 :: rest2)) [] := by
        simp [splitSegsAux, hne, hs.1]
      rw [hred]
      have hrest := ih (fun u hu => h u (List.mem_cons_of_mem _ hu))
      show _ :: splitSegs (joinChars (s2 :: rest2)) = _
      rw [hrest]
      simp [hs.1]

theorem normSegs_id (segs : List (List Char))
    (h : ∀ s ∈ segs, s ≠ ['.'] ∧ s ≠ ['.', '.']) :
    normSegs true segs = segs := by
  have hfold : ∀ (l acc : List (List Char)), (∀ s ∈ l, s ≠ ['.'] ∧ s ≠ ['.', '.']) →
      l.foldl (normStep true) acc = l.reverse ++ acc := by
    intro l
    induction l with
    | nil => intro acc _; rfl
    | cons s rest ih =>
      intro acc hl
      have hss := hl s (List.mem_cons_self _ _)
      have hstep : normStep true acc s = s :: acc := by
        unfold normStep
        rw [if_neg hss.1, if_neg hss.2]
      simp only [List.foldl_cons, hstep]
      rw [ih (s :: acc) (fun u hu => hl u (List.mem_cons_of_mem _ hu))]
      simp
  unfold normSegs
  rw [hfold segs [] h]
  simp

theorem nodeNormalize_render (segs : List (List Char))
    (h : ∀ s ∈ segs, goodSeg s) :
    nodeNormalize ⟨'/' :: joinChars segs⟩ = ⟨'/' :: joinChars segs⟩ := by
  unfold nodeNormalize
  have habs : isAbsL ('/' :: joinChars segs) = true := rfl
  have hsplit : splitSegs ('/' :: joinChars segs) = segs := by
    show splitSegsAux ('/' :: joinChars segs) [] = segs
    have hred : splitSegsAux ('/' :: joinChars segs) [] =
        splitSegsAux (joinChars segs) [] := by
      simp [splitSegsAux]
    rw [hred]
    exact splitSegs_joinChars segs (fun s hs => ⟨(h s hs).1, (h s hs).2.1⟩)
  have hdata : (String.mk ('/' :: joinChars segs)).data = '/' :: joinChars segs := rfl
  rw [hdata, habs, hsplit, normSegs_id segs (fun s hs => ⟨(h s hs).2.2.1, (h s hs).2.2.2⟩)]
  rfl

theorem nodeResolve_render (procCwd p : String) :
    nodeResolve procCwd p = ⟨'/' :: joinChars (pathResolvedSegs procCwd p)⟩ := by
  unfold nodeResolve pathResolvedSegs
  by_cases habs : isAbsL p.data = true
  · rw [if_pos habs, if_pos habs]
  · rw [if_neg habs, if_neg habs]

theorem pathResolved_render (procCwd p : String) :
    pathResolved procCwd p = ⟨'/' :: joinChars (pathResolvedSegs procCwd p)⟩ := by
  unfold pathResolved
  rw [nodeResolve_render]
  exact nodeNormalize_render _ (pathResolvedSegs_good procCwd p)

theorem joinChars_cons_cons (s b : List Char) (r : List (List Char)) :
    joinChars (s :: b :: r) = s ++ '/' :: joinChars (b :: r) := rfl

theorem joinChars_length_lt :
    ∀ (lt rest : List (List Char)), rest ≠ [] →
      (∀ s ∈ lt ++ rest, s ≠ []) →
      (joinChars lt).length < (joinChars (lt ++ rest)).length := by
  intro lt
  induction lt with
  | nil =>
    intro rest hne h
    cases rest with
    | nil => exact absurd rfl hne
    | cons r0 r' =>
      have hr0 : r0 ≠ [] := h r0 (List.mem_cons_self _ _)
      have : 1 ≤ r0.length := by
        cases r0 with
        | nil => exact absurd rfl hr0
        | cons a t => simp
      cases r' with
      | nil =>
        show (joinChars []).length < (joinChars [r0]).length
        simpa [joinChars] using this
      | cons r1 r'' =>
        show (joinChars []).length < (joinChars (r0 :: r1 :: r'')).length
        rw [joinChars_cons_cons]
        have h0 : (joinChars ([] : List (List Char))).length = 0 := rfl
        rw [h0]
        simp only [List.length_append, List.length_cons]
        omega
  | cons s lt' ih =>
    intro rest hne h
    have hs : s ≠ [] := h s (List.mem_cons_self _ _)
    cases lt' with
    | nil =>
      cases rest with
      | nil => exact absurd rfl hne
      | cons r0 r' =>
        show (joinChars [s]).length < (joinChars (s :: r0 :: r')).length
        rw [joinChars_cons_cons]
        have : 1 ≤ (joinChars (r0 :: r')).length := by
          have hr0 : r0 ≠ [] := h r0 (List.mem_cons_of_mem _ (List.mem_cons_self _ _))
          cases r' with
          | nil =>
            cases r0 with
            | nil => exact absurd rfl hr0
            | cons a t => simp [joinChars]
          | cons r1 r'' =>
            rw [joinChars_cons_cons]
            have : 1 ≤ r0.length := by
              cases r0 with
              | nil => exact absurd rfl hr0
              | cons a t => simp
            simp only [List.length_append, List.length_cons]
            omega
        simp only [joinChars, List.length_append, List.length_cons]
        omega
    | cons s2 lt'' =>
      have hih := ih rest hne (fun u hu => h u (List.mem_cons_of_mem _ hu))
      show (joinChars (s :: s2 :: lt'')).length <
        (joinChars (s :: (s2 :: lt'' ++ rest))).length
      rw [joinChars_cons_cons]
      have hcons2 : joinChars (s :: (s2 :: lt'' ++ rest)) =
          s ++ '/' :: joinChars (s2 :: lt'' ++ rest) := by
        cases lt'' <;> rfl
      rw [hcons2]
      simp only [List.length_append, List.length_cons]
      omega

/-- C2: `isPathSafe` returns true exactly when, after both paths are
resolved to absolute normalized form, the candidate equals the base or
starts with the base followed immediately by the separator; consequently
it returns false when the resolved candidate is a strict ancestor of the
base (its segment list is a proper prefix of the base's) and when the
candidate is a sibling sharing only a string prefix (the resolved
candidate extends the resolved base without an intervening separator). -/
theorem isPathSafe_characterization (procCwd basePath targetPath : String) :
    (Installer.isPathSafe procCwd basePath targetPath = true ↔
      pathResolved procCwd targetPath = pathResolved procCwd basePath ∨
      ((pathResolved procCwd basePath).data ++ ['/']) <+:
        (pathResolved procCwd targetPath).data) ∧
    (pathResolvedSegs procCwd targetPath <+: pathResolvedSegs procCwd basePath →
      ¬ pathResolvedSegs procCwd targetPath = pathResolvedSegs procCwd basePath →
      Installer.isPathSafe procCwd basePath targetPath = false) ∧
    (∀ ext : List Char, ¬ ext = [] →
      (∀ c, ext.head? = some c → ¬ c = '/') →
      (pathResolved procCwd targetPath).data =
        (pathResolved procCwd basePath).data ++ ext →
      Installer.isPathSafe procCwd basePath targetPath = false) := by
  refine ⟨?_, ?_, ?_⟩
  · simp only [Installer.isPathSafe, Bool.or_eq_true, List.isPrefixOf_iff_prefix,
      beq_iff_eq]
    exact Or.comm
  · intro hpre hne
    obtain ⟨rest, hrest⟩ := hpre
    have hrestne : rest ≠ [] := by
      intro h
      rw [h, List.append_nil] at hrest
      exact hne hrest
    have hgood_b := pathResolvedSegs_good procCwd basePath
    have hlen : (joinChars (pathResolvedSegs procCwd targetPath)).length <
        (joinChars (pathResolvedSegs procCwd basePath)).length := by
      rw [← hrest]
      apply joinChars_length_lt _ _ hrestne
      intro u hu
      rw [hrest] at hu
      exact (hgood_b u hu).1
    have hrt : (pathResolved procCwd targetPath).data =
        '/' :: joinChars (pathResolvedSegs procCwd targetPath) := by
      rw [pathResolved_render]
    have hrb : (pathResolved procCwd basePath).data =
        '/' :: joinChars (pathResolvedSegs procCwd basePath) := by
      rw [pathResolved_render]
    simp only [Installer.isPathSafe]
    apply Bool.or_eq_false_iff.mpr
    constructor
    · cases hA : List.isPrefixOf ((pathResolved procCwd basePath).data ++ ['/'])
          (pathResolved procCwd targetPath).data
      · rfl
      · exfalso
        have hpre2 := List.isPrefixOf_iff_prefix.mp hA
        have hle := hpre2.length_le
        rw [hrt, hrb] at hle
        simp only [List.length_append, List.length_cons, List.length_singleton] at hle
        omega
    · cases hB : (pathResolved procCwd targetPath == pathResolved procCwd basePath)
      · rfl
      · exfalso
        have heq := beq_iff_eq.mp hB
        have : (pathResolved procCwd targetPath).data =
            (pathResolved procCwd basePath).data := by rw [heq]
        rw [hrt, hrb] at this
        have := congrArg List.length this
        simp only [List.length_cons] at this
        omega
  · intro ext hextne hnosl heq
    simp only [Installer.isPathSafe]
    apply Bool.or_eq_false_iff.mpr
    constructor
    · cases hA : List.isPrefixOf ((pathResolved procCwd basePath).data ++ ['/'])
          (pathResolved procCwd targetPath).data
      · rfl
      · exfalso
        have hpre2 := List.isPrefixOf_iff_prefix.mp hA
        rw [heq] at hpre2
        have hsl : ['/'] <+: ext := (List.prefix_append_right_inj _).mp hpre2
        obtain ⟨r, hr⟩ := hsl
        have : ext.head? = some '/' := by
          rw [← hr]
          rfl
        exact hnosl '/' this rfl
    · cases hB : (pathResolved procCwd targetPath == pathResolved procCwd basePath)
      · rfl
      · exfalso
        have heqs := beq_iff_eq.mp hB
        have hdata : (pathResolved procCwd targetPath).data =
            (pathResolved procCwd basePath).data := by rw [heqs]
        rw [heq] at hdata
        have hlen := congrArg List.length hdata
        simp only [List.length_append] at hlen
        have : ext.length = 0 := by omega
        exact hextne (List.length_eq_zero.mp this)

/-- C2 witness: concrete instances — a contained path is safe, an
ancestor (`/a` under base `/a/b`) is rejected, and the sibling `/a/bc`
sharing only the string prefix `/a/b` is rejected. -/
theorem isPathSafe_characterization_witness :
    Installer.isPathSafe "/w" "/a/b" "/a/b/c" = true ∧
    Installer.isPathSafe "/w" "/a/b" "/a" = false ∧
    Installer.isPathSafe "/w" "/a/b" "/a/bc" = false := by
  refine ⟨?_, ?_, ?_⟩
  · exact (isPathSafe_characterization "/w" "/a/b" "/a/b/c").1.mpr
      (Or.inr (by decide))
  · exact (isPathSafe_characterization "/w" "/a/b" "/a").2.1 (by decide) (by decide)
  · exact (isPathSafe_characterization "/w" "/a/b" "/a/bc").2.2 ['c'] (by decide)
      (by intro c hc; cases hc; decide) (by decide)
